import Mathlib

/-!
# Verification of the sunzi finite-field / radix-2 NTT core

This file gives a shallow embedding, in Lean 4, of the arithmetic core of the
`sunzi` library: the `Field` capability operations of `src/ff/mod.rs`
(`pow`, `inverse`, `batch_inversion`, `FftField::get_root_of_unity`) and the
radix-2 evaluation domain of `src/fft/domain/radix2.rs`
(`Radix2EvaluationDomain::new`, `fft_in_place`, `ifft_in_place`,
`coset_ifft_in_place`, `evaluate_all_lagrange_coefficients`,
`vanishing_polynomial`, `evaluate_vanishing_polynomial`, `elements`,
`serial_radix2_fft`).

Field elements are modelled by an arbitrary Lean `Field F` with decidable
equality; `u64`/`usize` values are modelled by `ℕ` with explicit `2 ^ 64`
bounds where truncation matters; buffers (`Vec<T>`/`&mut [T]`) are modelled by
`List F`, with in-place mutation turned into explicit state passing; fallible
operations return `Option`.  Small integer helpers (`next_power_of_two`,
`trailing_zeros`) are written with a structural fuel argument so that every
definition evaluates by kernel reduction.
-/

set_option linter.unusedSectionVars false
set_option maxRecDepth 100000

namespace Sunzi

/-! ## Machine-integer helpers -/

/-- Fuel-driven body of `usize::next_power_of_two`: the least power of two
that is `≥ n` (with `next_power_of_two 0 = 1`, as in Rust).  The fuel is only
there to make the recursion structural; `nextPowerOfTwo` supplies fuel `n`,
which is always sufficient. -/
def nextPowerOfTwoAux : ℕ → ℕ → ℕ
  | 0, _ => 1
  | fuel + 1, n => if n ≤ 1 then 1 else 2 * nextPowerOfTwoAux fuel ((n + 1) / 2)

/-- Models `usize::next_power_of_two` (overflow cannot occur at the sizes the
domain accepts, so it is not modelled). -/
def nextPowerOfTwo (n : ℕ) : ℕ :=
  nextPowerOfTwoAux n n

/-- Fuel-driven body of `u64::trailing_zeros` on a nonzero argument.  The
source only applies it to `next_power_of_two` results, which are nonzero, so
the `trailing_zeros 0 = 64` corner of the machine op is never reached. -/
def trailingZerosAux : ℕ → ℕ → ℕ
  | 0, _ => 0
  | fuel + 1, n => if n % 2 = 0 ∧ n ≠ 0 then trailingZerosAux fuel (n / 2) + 1 else 0

/-- Models `u64::trailing_zeros` (on nonzero inputs). -/
def trailingZeros (n : ℕ) : ℕ :=
  trailingZerosAux n n

/-- Modelled from the spec: `k_adicity(k, n)` from `ff/utils` (file not
included in the sources) computes the exact power of `k` dividing `n`,
"computing the exact powers of 2 and of `base` dividing `n`".  Fuel-driven to
keep the recursion structural. -/
def kAdicityAux : ℕ → ℕ → ℕ → ℕ
  | 0, _, _ => 0
  | fuel + 1, k, n =>
    if 2 ≤ k ∧ n % k = 0 ∧ n ≠ 0 then kAdicityAux fuel k (n / k) + 1 else 0

/-- Modelled from the spec: the exact power of `k` dividing `n`. -/
def kAdicity (k n : ℕ) : ℕ :=
  kAdicityAux n k n

/-- Modelled from the spec: `bitreverse(k, l)` from `fft/domain/utils` (file
not included in the sources) reverses the low `l` bits of `k`, producing the
bit-reversed counterpart used by the decimation-in-time permutation of
§4.6 of the spec. -/
def bitreverse (k : ℕ) : ℕ → ℕ
  | 0 => 0
  | l + 1 => k % 2 * 2 ^ l + bitreverse (k / 2) l

/-! ## `Field` operations (`src/ff/mod.rs`) -/

variable {F : Type} [Field F] [DecidableEq F]


/-- `Field::inverse`: the multiplicative inverse for nonzero elements, no
value on zero input (trait contract, lines 118-119 of `ff/mod.rs`). -/
def inverse (x : F) : Option F :=
  if x = 0 then none else some x⁻¹

/-- The `w` low bits of `x`, most significant first. -/
def bitsW : ℕ → ℕ → List Bool
  | 0, _ => []
  | w + 1, x => x.testBit w :: bitsW w x

/-- Modelled from the spec: `BitIterator` from `utils` (file not included in
the sources) is a "lazy, finite, MSB-first bit sequence over a limb-encoded
exponent"; limbs are `u64`, least significant limb first, so the iterator
walks the limbs from the last to the first, 64 bits each, most significant
bit first. -/
def bitIter (limbs : List ℕ) : List Bool :=
  (limbs.reverse.map (bitsW 64)).flatten

/-- One iteration of the `Field::pow` loop (lines 135-145 of `ff/mod.rs`):
square if a set bit has been seen, record the first set bit, multiply on a
set bit. -/
def powStep (a : F) (s : F × Bool) (i : Bool) : F × Bool :=
  let res := if s.2 then s.1 * s.1 else s.1
  let found := if s.2 then s.2 else i
  (if i then res * a else res, found)

/-- `Field::pow`: square-and-multiply over the MSB-first bit sequence of a
limb-encoded exponent. -/
def Field.pow (a : F) (limbs : List ℕ) : F :=
  ((bitIter limbs).foldl (powStep a) (1, false)).1

/-- The natural number encoded by a list of `u64` limbs, least significant
limb first. -/
def natOfLimbs : List ℕ → ℕ
  | [] => 0
  | l :: ls => l + 2 ^ 64 * natOfLimbs ls

/-! ### Correctness of `Field.pow` -/

/-- The value accumulated by folding an MSB-first bit list onto `v`. -/
def bitsVal (v : ℕ) (bs : List Bool) : ℕ :=
  bs.foldl (fun w b => 2 * w + b.toNat) v

/-! ## `batch_inversion` (`src/ff/mod.rs`, lines 371-402) -/

/-- The nonzero elements of a buffer, in order: the sequence visited by both
passes of `batch_inversion` (`filter(|f| !f.is_zero())`). -/
def nzFilter (v : List F) : List F :=
  v.filter (fun f => decide (f ≠ 0))

/-- First pass of `batch_inversion`: starting from accumulator `tmp`, push
the running products `[tmp*a, tmp*a*b, ...]` of the (already filtered)
elements. -/
def firstPass : List F → F → List F
  | [], _ => []
  | f :: rest, tmp => (tmp * f) :: firstPass rest (tmp * f)

/-- Second pass of `batch_inversion`, acting on the reversed buffer (the
source iterates `v` backwards): skip zeros; pair each nonzero element `f`
with the next prefix product `s`, replacing `f` by `tmp * s` and updating
`tmp := tmp * f`.  When the product list is exhausted the zip ends and the
remaining elements are untouched (unreachable in fact, since the list has
one entry per nonzero element). -/
def backPass : List F → List F → F → List F
  | [], _, _ => []
  | f :: rest, ss, tmp =>
    if f = 0 then f :: backPass rest ss tmp
    else
      match ss with
      | [] => f :: rest
      | s :: ss2 => tmp * s :: backPass rest ss2 (tmp * f)

/-- `batch_inversion`: Montgomery's trick.  The `tmp.inverse().unwrap()` of
line 385 is written with the total `⁻¹`; the `unwrap` cannot fail because
the accumulated product of nonzero field elements is nonzero (proved in
`nzFilter_prod_ne_zero`). -/
def batchInversion (v : List F) : List F :=
  (backPass v.reverse
    ((firstPass (nzFilter v) 1).reverse.drop 1 ++ [1])
    (((nzFilter v).foldl (fun t f => t * f) 1)⁻¹)).reverse

/-- The products the backward pass should consume, described structurally:
one entry per nonzero element of the (reversed) buffer, namely the product
of the nonzero elements that come after it. -/
def suffixProds : List F → List F
  | [] => []
  | f :: rest =>
    if f = 0 then suffixProds rest else (nzFilter rest).prod :: suffixProds rest

/-! ## `FftParameters` and `FftField::get_root_of_unity` (`src/ff/mod.rs`) -/

/-- The per-field constant bundle consumed by the FFT layer
(`FftParameters`, lines 151-173 of `ff/mod.rs`, together with the
`GENERATOR` constant exposed through `FftField::multiplicative_generator`).
Constants are external data (spec §6); they are modelled as plain structure
fields. -/
structure FftParams (F : Type) where
  TWO_ADICITY : ℕ
  twoAdicRootOfUnity : F
  smallSubgroupBase : Option ℕ
  smallSubgroupBaseAdicity : Option ℕ
  largeSubgroupRootOfUnity : Option F
  mulGenerator : F

/-- `omega.square_in_place()` iterated `c` times (the `for _ in a..b` squaring
loops of `get_root_of_unity`). -/
def squareIter (x : F) : ℕ → F
  | 0 => x
  | c + 1 => squareIter (x * x) c

/-- `omega = omega.pow(&[q as u64])` iterated `c` times (the
`for _ in q_adicity..small_subgroup_base_adicity` loop). -/
def powqIter (q : ℕ) (x : F) : ℕ → F
  | 0 => x
  | c + 1 => powqIter q (Field.pow x [q]) c

/-- `FftField::get_root_of_unity` (lines 236-284 of `ff/mod.rs`).  In the
mixed-radix branch the source `expect`s that `SMALL_SUBGROUP_BASE` and
`SMALL_SUBGROUP_BASE_ADICITY` are configured together with
`LARGE_SUBGROUP_ROOT_OF_UNITY`; an inconsistent parameter set panics there,
modelled as `none` (that arm is unreachable for well-formed parameters and
is not relied upon by any theorem below, which all assume the purely
two-adic configuration). -/
def getRootOfUnity (P : FftParams F) (n : ℕ) : Option F :=
  match P.largeSubgroupRootOfUnity, P.smallSubgroupBase, P.smallSubgroupBaseAdicity with
  | some lsr, some q, some sa =>
    let qAdicity := kAdicity q n
    let qPart := q ^ qAdicity
    let twoAdicity := kAdicity 2 n
    let twoPart := 2 ^ twoAdicity
    if n ≠ twoPart * qPart ∨ twoAdicity > P.TWO_ADICITY ∨ qAdicity > sa then none
    else some (squareIter (powqIter q lsr (sa - qAdicity)) (P.TWO_ADICITY - twoAdicity))
  | some _, _, _ => none
  | none, _, _ =>
    let size := nextPowerOfTwo n
    let lg := trailingZeros size
    if n ≠ size ∨ lg > P.TWO_ADICITY then none
    else some (squareIter P.twoAdicRootOfUnity (P.TWO_ADICITY - lg))

/-! ## `Radix2EvaluationDomain` (`src/fft/domain/radix2.rs`) -/

/-- The radix-2 evaluation domain value (lines 21-36 of `radix2.rs`); `size`
is a `u64`, modelled as `ℕ`. -/
structure Radix2EvaluationDomain (F : Type) where
  size : ℕ
  log_size_of_group : ℕ
  size_as_field_element : F
  size_inv : F
  group_gen : F
  group_gen_inv : F
  generator_inv : F

/-- `Radix2EvaluationDomain::new` (lines 49-76 of `radix2.rs`): round the
requested size up to a power of two, reject if its log exceeds the
two-adicity, then derive the subgroup generator and the required inverses,
each failure propagating (`?`) as `none`.  The `debug_assert_eq!` on line 63
is compiled out in release and has no semantics here. -/
def Radix2EvaluationDomain.new (P : FftParams F) (num_coeffs : ℕ) :
    Option (Radix2EvaluationDomain F) :=
  if trailingZeros (nextPowerOfTwo num_coeffs) > P.TWO_ADICITY then none
  else
    match getRootOfUnity P (nextPowerOfTwo num_coeffs) with
    | none => none
    | some group_gen =>
      match inverse ((nextPowerOfTwo num_coeffs : ℕ) : F) with
      | none => none
      | some size_inv =>
        match inverse group_gen, inverse P.mulGenerator with
        | some group_gen_inv, some generator_inv =>
          some
            { size := nextPowerOfTwo num_coeffs
              log_size_of_group := trailingZeros (nextPowerOfTwo num_coeffs)
              size_as_field_element := ((nextPowerOfTwo num_coeffs : ℕ) : F)
              size_inv := size_inv
              group_gen := group_gen
              group_gen_inv := group_gen_inv
              generator_inv := generator_inv }
        | _, _ => none

/-- The invariant every successfully constructed domain satisfies (for a
purely two-adic parameter set with a genuine primitive `2 ^ TWO_ADICITY`-th
root of unity, `TWO_ADICITY < 64` so that `size` fits in a `u64`). -/
structure IsGood (d : Radix2EvaluationDomain F) : Prop where
  size_eq : d.size = 2 ^ d.log_size_of_group
  size_lt : d.size < 2 ^ 64
  prim : IsPrimitiveRoot d.group_gen d.size
  gen_inv : d.group_gen_inv = d.group_gen⁻¹
  sfe : d.size_as_field_element = ((d.size : ℕ) : F)
  sinv : d.size_inv = (((d.size : ℕ) : F))⁻¹
  cast_ne : ((d.size : ℕ) : F) ≠ 0

/-! ## Serial radix-2 kernel (`radix2.rs`, lines 184-217) and transforms

The buffer type parameter `T: DomainCoeff<F>` is instantiated at `F` itself
(the claims are about coefficient vectors of field elements). -/

/-- `slice::swap(i, j)`: read both entries, write both entries. -/
def listSwap (l : List F) (i j : ℕ) : List F :=
  (l.set i (l.getD j 0)).set j (l.getD i 0)

/-- The bit-reversal loop of `serial_radix2_fft` (lines 188-193): for each
`k` below `n` (the `u32`-cast buffer length of line 185, passed in by the
caller), swap `k` with `bitreverse k log_n` when `k < rk` (so each pair is
swapped exactly once). -/
def swapBitrevLoop (n log_n : ℕ) (a : List F) : List F :=
  (List.range n).foldl
    (fun acc k =>
      if k < bitreverse k log_n then listSwap acc k (bitreverse k log_n) else acc)
    a

/-- One iteration of the inner butterfly loop (lines 203-209) on the block
starting at `k`: `t = a[k+j+m] * w`; `a[k+j+m] = a[k+j] - t`;
`a[k+j] = a[k+j] + t` (the second write reads `a[k+j]` after the first
write, at the distinct index `k+j+m`); `w *= w_m`. -/
def butterflyBody (wm : F) (k m : ℕ) (s : List F × F) (j : ℕ) : List F × F :=
  let t := s.1.getD (k + j + m) 0 * s.2
  let tmp := s.1.getD (k + j) 0 - t
  let a1 := s.1.set (k + j + m) tmp
  (a1.set (k + j) (a1.getD (k + j) 0 + t), s.2 * wm)

/-- The inner `for j in 0..m` butterfly loop (lines 201-210): state is the
buffer together with the running twiddle `w`, reset to `1` at each block. -/
def butterflyInner (wm : F) (k m : ℕ) (a : List F) : List F :=
  ((List.range m).foldl (butterflyBody wm k m) (a, 1)).1

/-- The `while k < n` block loop of one butterfly stage (lines 199-213):
`k` runs through `0, 2m, 4m, ...` while `k < n`, i.e. `⌈n / 2m⌉` blocks. -/
def stageBlocks (n : ℕ) (wm : F) (m : ℕ) (a : List F) : List F :=
  (List.range ((n + 2 * m - 1) / (2 * m))).foldl
    (fun acc b => butterflyInner wm (b * (2 * m)) m acc) a

/-- `serial_radix2_fft` (total version, defined for any input; the entry
assertion `assert_eq!(n, 1 << log_n)` lives in `serialRadix2FftChecked`,
which agrees with this function exactly when the assertion holds): line 185
computes `let n = a.len() as u32`, a wrapping cast, modelled as
`a.length % 2^32`; then the bit-reversal permutation over `0..n` is
followed by `log_n` butterfly stages with `m` doubling from `1` and stage
twiddle `w_m = omega.pow(n / (2m))`. -/
def serialRadix2Fft (a : List F) (omega : F) (log_n : ℕ) : List F :=
  ((List.range log_n).foldl
    (fun s _ =>
      (stageBlocks (a.length % 2 ^ 32)
        (Field.pow omega [a.length % 2 ^ 32 / (2 * s.2)]) s.2 s.1,
        2 * s.2))
    (swapBitrevLoop (a.length % 2 ^ 32) log_n a, 1)).1

/-- Modelled from the spec: `best_fft` (from `fft/domain/utils`, not included
in the sources) dispatches between the serial kernel and a data-parallel
variant; "parallelism strategy is an external dispatch decision, not a
semantic one" (spec §2), so its semantics is the serial kernel it is handed. -/
def bestFft (a : List F) (omega : F) (log_n : ℕ) : List F :=
  serialRadix2Fft a omega log_n

/-- `Vec::resize(new_len, value)`: truncate to `new_len`, or pad with
`value` up to `new_len`. -/
def listResize (l : List F) (n : ℕ) (x : F) : List F :=
  l.take n ++ List.replicate (n - l.length) x

/-- `fft_in_place` (lines 93-101): resize the caller's buffer to the domain
size, then run the kernel with `group_gen`. -/
def fftInPlace (d : Radix2EvaluationDomain F) (coeffs : List F) : List F :=
  bestFft (listResize coeffs d.size 0) d.group_gen d.log_size_of_group

/-- `ifft_in_place` (lines 104-113): resize, run the kernel with
`group_gen_inv`, then scale every entry by `size_inv`. -/
def ifftInPlace (d : Radix2EvaluationDomain F) (evals : List F) : List F :=
  (bestFft (listResize evals d.size 0) d.group_gen_inv d.log_size_of_group).map
    (fun v => v * d.size_inv)

/-- Modelled from the spec: `EvaluationDomain::distribute_powers` (in
`fft/domain/mod.rs`, not included in the sources) "multiplies the `i`-th
coefficient by `generator_inv^i`" (spec §4.5, coset-shift correction). -/
def distributePowers (v : List F) (g : F) : List F :=
  v.mapIdx (fun i x => x * g ^ i)

/-- `coset_ifft_in_place` (lines 116-119). -/
def cosetIfftInPlace (d : Radix2EvaluationDomain F) (evals : List F) : List F :=
  distributePowers (ifftInPlace d evals) d.generator_inv

/-- The linear scan of `evaluate_all_lagrange_coefficients` in the special
case `tau^size == 1` (lines 127-136): walk `omega_i` forward from `1`; on
the first match write `1` and break, leaving the remaining entries at their
initial `0`. -/
def lagrangeIndicatorLoop (g tau : F) : ℕ → F → List F
  | 0, _ => []
  | c + 1, w =>
    if w = tau then 1 :: List.replicate c 0
    else 0 :: lagrangeIndicatorLoop g tau c (w * g)

/-- The accumulation loop of the general case (lines 140-149): build
`u[i] = tau - r` and `ls[i] = l` while `l *= g`, `r *= g`. -/
def lagrangeUVLoop (g tau : F) : ℕ → F → F → List F × List F
  | 0, _, _ => ([], [])
  | c + 1, l, r =>
    ((tau - r) :: (lagrangeUVLoop g tau c (l * g) (r * g)).1,
      l :: (lagrangeUVLoop g tau c (l * g) (r * g)).2)

/-- `evaluate_all_lagrange_coefficients` (lines 121-159). -/
def evaluateAllLagrangeCoefficients (d : Radix2EvaluationDomain F) (tau : F) :
    List F :=
  if Field.pow tau [d.size] = 1 then
    lagrangeIndicatorLoop d.group_gen tau d.size 1
  else
    List.zipWith (fun x l => l * x)
      (batchInversion
        (lagrangeUVLoop d.group_gen tau d.size
          ((Field.pow tau [d.size] - 1) * d.size_inv) 1).1)
      (lagrangeUVLoop d.group_gen tau d.size
        ((Field.pow tau [d.size] - 1) * d.size_inv) 1).2

/-- Modelled from the spec: the `SparsePolynomial` representation returned
by `vanishing_polynomial` (the polynomial module is not included in the
sources); it records the (degree, coefficient) pairs of the "sparse, two
nonzero coefficients" vanishing form (spec §4.5). -/
structure SparsePolynomial (F : Type) where
  coeffs : List (ℕ × F)

/-- `vanishing_polynomial` (lines 161-164). -/
def vanishingPolynomial (d : Radix2EvaluationDomain F) : SparsePolynomial F :=
  ⟨[(0, -1), (d.size, 1)]⟩

/-- `evaluate_vanishing_polynomial` (lines 169-171): `tau.pow([size]) - 1`. -/
def evaluateVanishingPolynomial (d : Radix2EvaluationDomain F) (tau : F) : F :=
  Field.pow tau [d.size] - 1

/-- The `Elements` iterator state (constructed by `elements`, lines 174-181;
its `next` lives in `fft/domain/utils`, outside the given sources). -/
structure Elements (F : Type) where
  cur_elem : F
  cur_pow : ℕ
  size : ℕ
  group_gen : F

/-- `elements` (lines 174-181): a fresh iterator starting at the identity. -/
def elements (d : Radix2EvaluationDomain F) : Elements F :=
  { cur_elem := 1, cur_pow := 0, size := d.size, group_gen := d.group_gen }

/-! ## Checked kernel: every buffer access bounds-checked (`Option`-valued) -/

/-- A bounds-checked read (`a[i]` on a slice panics out of bounds). -/
def getChecked (l : List F) (i : ℕ) : Option F :=
  l.get? i

/-- A bounds-checked write. -/
def setChecked (l : List F) (i : ℕ) (x : F) : Option (List F) :=
  if i < l.length then some (l.set i x) else none

/-- Bounds-checked `slice::swap`. -/
def listSwapChecked (l : List F) (i j : ℕ) : Option (List F) :=
  (getChecked l j).bind fun x =>
    (getChecked l i).bind fun y =>
      (setChecked l i x).bind fun l1 => setChecked l1 j y

/-- One bounds-checked butterfly iteration (the reads and writes at
`k + j` and `k + j + m` of lines 203-208, in source order). -/
def butterflyStepChecked (wm : F) (k m : ℕ) (s : List F × F) (j : ℕ) :
    Option (List F × F) :=
  (getChecked s.1 (k + j + m)).bind fun x =>
    (getChecked s.1 (k + j)).bind fun y =>
      (setChecked s.1 (k + j + m) (y - x * s.2)).bind fun a1 =>
        (getChecked a1 (k + j)).bind fun z =>
          (setChecked a1 (k + j) (z + x * s.2)).map fun a2 => (a2, s.2 * wm)

/-- Bounds-checked inner butterfly loop. -/
def butterflyInnerChecked (wm : F) (k m : ℕ) (a : List F) : Option (List F) :=
  ((List.range m).foldlM (butterflyStepChecked wm k m) (a, (1 : F))).map Prod.fst

/-- Bounds-checked block loop of one stage. -/
def stageBlocksChecked (n : ℕ) (wm : F) (m : ℕ) (a : List F) : Option (List F) :=
  (List.range ((n + 2 * m - 1) / (2 * m))).foldlM
    (fun acc b => butterflyInnerChecked wm (b * (2 * m)) m acc) a

/-- Bounds-checked `swap` loop of the bit-reversal permutation, over
`0..n` with `n` the `u32`-cast length. -/
def swapBitrevChecked (n log_n : ℕ) (a : List F) : Option (List F) :=
  (List.range n).foldlM
    (fun acc k =>
      if k < bitreverse k log_n then listSwapChecked acc k (bitreverse k log_n)
      else some acc)
    a

/-- `serial_radix2_fft` with the entry assertion and every buffer access
made explicit: `none` models a panic.  Line 185 casts the length to `u32`
(wrapping, modelled as `a.length % 2^32`), and line 186 checks
`assert_eq!(n, 1u32 << log_n)`: for `log_n ≥ 32` the `u32` shift itself
overflows (a panic under Rust's debug overflow checks), and otherwise the
assertion compares the wrapped length with `2^log_n`; the loops then run
over `0..n`, so for buffers longer than `n` only that prefix is touched. -/
def serialRadix2FftChecked (a : List F) (omega : F) (log_n : ℕ) :
    Option (List F) :=
  if 32 ≤ log_n then none
  else if a.length % 2 ^ 32 ≠ 2 ^ log_n then none
  else
    (swapBitrevChecked (a.length % 2 ^ 32) log_n a).bind fun b =>
      ((List.range log_n).foldlM
        (fun s _ =>
          (stageBlocksChecked (a.length % 2 ^ 32)
            (Field.pow omega [a.length % 2 ^ 32 / (2 * s.2)])
            s.2 s.1).map fun a2 => (a2, 2 * s.2))
        (b, 1)).map Prod.fst

/-! ## Caller-state semantics for the frame claim

Each `&self` method call is embedded as a step on the caller-visible state:
the domain value together with the caller-owned buffer (or the returned
value).  Rust hands the method a shared reference to the domain, so the step
function returns the domain component it received; the frame theorem records
the observable consequence that no field of the domain changes across any
call. -/

def fftInPlaceStep (d : Radix2EvaluationDomain F) (buf : List F) :
    Radix2EvaluationDomain F × List F :=
  (d, fftInPlace d buf)

def ifftInPlaceStep (d : Radix2EvaluationDomain F) (buf : List F) :
    Radix2EvaluationDomain F × List F :=
  (d, ifftInPlace d buf)

def cosetIfftInPlaceStep (d : Radix2EvaluationDomain F) (buf : List F) :
    Radix2EvaluationDomain F × List F :=
  (d, cosetIfftInPlace d buf)

def evaluateAllLagrangeCoefficientsStep (d : Radix2EvaluationDomain F)
    (tau : F) : Radix2EvaluationDomain F × List F :=
  (d, evaluateAllLagrangeCoefficients d tau)

def evaluateVanishingPolynomialStep (d : Radix2EvaluationDomain F) (tau : F) :
    Radix2EvaluationDomain F × F :=
  (d, evaluateVanishingPolynomial d tau)

def elementsStep (d : Radix2EvaluationDomain F) :
    Radix2EvaluationDomain F × Elements F :=
  (d, elements d)

/-! ## A concrete FFT-friendly field for evaluation: `ZMod 17`

`17 - 1 = 2^4`, so `ZMod 17` has two-adicity 4 with `3` a primitive 16-th
root of unity (and also a multiplicative generator). -/

instance fact17prime : Fact (Nat.Prime 17) := ⟨by norm_num⟩

/-- A valid two-adic parameter set for `ZMod 17`. -/
def P17 : FftParams (ZMod 17) :=
  { TWO_ADICITY := 4
    twoAdicRootOfUnity := 3
    smallSubgroupBase := none
    smallSubgroupBaseAdicity := none
    largeSubgroupRootOfUnity := none
    mulGenerator := 3 }

/-- The size-4 domain over `ZMod 17` that `new P17 4` produces. -/
def d17 : Radix2EvaluationDomain (ZMod 17) :=
  { size := 4
    log_size_of_group := 2
    size_as_field_element := 4
    size_inv := 13
    group_gen := 13
    group_gen_inv := 4
    generator_inv := 6 }

/-! ## Theorems -/

theorem bitsVal_nil (v : ℕ) : bitsVal v [] = v := rfl

theorem bitsVal_cons (v : ℕ) (b : Bool) (bs : List Bool) :
    bitsVal v (b :: bs) = bitsVal (2 * v + b.toNat) bs := rfl

theorem bitsVal_append (v : ℕ) (bs cs : List Bool) :
    bitsVal v (bs ++ cs) = bitsVal (bitsVal v bs) cs := by
  simp [bitsVal, List.foldl_append]

theorem powStep_foldl (a : F) (bs : List Bool) (v : ℕ) :
    bs.foldl (powStep a) (a ^ v, decide (v ≠ 0)) =
      (a ^ bitsVal v bs, decide (bitsVal v bs ≠ 0)) := by
  induction bs generalizing v with
  | nil => simp [bitsVal]
  | cons b bs ih =>
    rw [List.foldl_cons, bitsVal_cons]
    have hstep : powStep a (a ^ v, decide (v ≠ 0)) b =
        (a ^ (2 * v + b.toNat), decide (2 * v + b.toNat ≠ 0)) := by
      rcases hv : decide (v ≠ 0) with _ | _
      · have hv0 : v = 0 := by
          by_contra h
          simp [h] at hv
        subst hv0
        cases b <;> simp [powStep, pow_succ]
      · have hv0 : v ≠ 0 := of_decide_eq_true hv
        have h2 : 2 * v + b.toNat ≠ 0 := by positivity
        cases b <;>
          simp [powStep, hv0, h2, ← pow_add, ← pow_succ, ← two_mul]
    rw [hstep, ih]

theorem bitsVal_bitsW (w x v : ℕ) :
    bitsVal v (bitsW w x) = v * 2 ^ w + x % 2 ^ w := by
  induction w generalizing v with
  | zero => simp [bitsW, bitsVal, Nat.mod_one]
  | succ w ih =>
    rw [bitsW, bitsVal_cons, ih]
    have hbit : (x.testBit w).toNat = x / 2 ^ w % 2 := by
      rw [Nat.testBit_to_div_mod]
      rcases Nat.mod_two_eq_zero_or_one (x / 2 ^ w) with h | h <;> simp [h]
    rw [hbit, Nat.mod_pow_succ, pow_succ]
    ring

theorem bitsVal_bitIter (limbs : List ℕ) (v : ℕ)
    (h : ∀ l ∈ limbs, l < 2 ^ 64) :
    bitsVal v (bitIter limbs) = v * 2 ^ (64 * limbs.length) + natOfLimbs limbs := by
  induction limbs generalizing v with
  | nil => simp [bitIter, bitsVal, natOfLimbs]
  | cons l ls ih =>
    have hl : l < 2 ^ 64 := h l (List.mem_cons_self l ls)
    have hls : ∀ x ∈ ls, x < 2 ^ 64 := fun x hx => h x (List.mem_cons_of_mem l hx)
    have hjoin : bitIter (l :: ls) = bitIter ls ++ bitsW 64 l := by
      simp [bitIter, List.reverse_cons]
    rw [hjoin, bitsVal_append, ih v hls, bitsVal_bitsW, Nat.mod_eq_of_lt hl,
      natOfLimbs, List.length_cons,
      show 64 * (ls.length + 1) = 64 * ls.length + 64 by ring, pow_add]
    ring

/-- `Field::pow` computes exactly the `n`-th power for the encoded exponent
`n` (the limbs being `u64` values). -/
theorem Field.pow_eq_pow (a : F) (limbs : List ℕ) (h : ∀ l ∈ limbs, l < 2 ^ 64) :
    Field.pow a limbs = a ^ natOfLimbs limbs := by
  have h0 : ((1 : F), false) = (a ^ 0, decide ((0 : ℕ) ≠ 0)) := by simp
  rw [Field.pow, h0, powStep_foldl]
  have : bitsVal 0 (bitIter limbs) = natOfLimbs limbs := by
    rw [bitsVal_bitIter limbs 0 h]; ring
  rw [this]

/-- Single-limb corollary: `a.pow([e])` is `a ^ e` for `e < 2 ^ 64`. -/
theorem Field.pow_single (a : F) (e : ℕ) (h : e < 2 ^ 64) :
    Field.pow a [e] = a ^ e := by
  rw [Field.pow_eq_pow a [e] (by simpa using h)]
  simp [natOfLimbs]

/-! ### Correctness of `batchInversion` -/

theorem nzFilter_prod_ne_zero (v : List F) : (nzFilter v).prod ≠ 0 := by
  apply List.prod_ne_zero
  intro h0
  have := (List.mem_filter.mp h0).2
  simp at this

theorem nzFilter_nil_of (v : List F) (h : nzFilter v = []) : suffixProds v = [] := by
  induction v with
  | nil => rfl
  | cons f rest ih =>
    by_cases hf : f = 0
    · have : nzFilter rest = [] := by
        simpa [nzFilter, List.filter_cons, hf] using h
      simp [suffixProds, hf, ih this]
    · exfalso
      have hd : decide (f ≠ 0) = true := by simp [hf]
      rw [nzFilter, List.filter_cons, if_pos hd] at h
      exact List.cons_ne_nil _ _ h

theorem backPass_cons_zero (rest ss : List F) (tmp : F) :
    backPass ((0 : F) :: rest) ss tmp = 0 :: backPass rest ss tmp := by
  simp [backPass]

theorem backPass_cons_ne (f : F) (hf : f ≠ 0) (rest ss2 : List F) (s tmp : F) :
    backPass (f :: rest) (s :: ss2) tmp = tmp * s :: backPass rest ss2 (tmp * f) := by
  simp [backPass, hf]

theorem backPass_spec (rv t : List F) :
    backPass rv (suffixProds rv ++ t) ((nzFilter rv).prod)⁻¹ =
      rv.map (fun x => x⁻¹) := by
  induction rv generalizing t with
  | nil => simp [backPass]
  | cons f rest ih =>
    by_cases hf : f = 0
    · subst hf
      have h1 : nzFilter ((0 : F) :: rest) = nzFilter rest := by
        simp [nzFilter, List.filter_cons]
      rw [List.map_cons, suffixProds, if_pos rfl, h1, backPass_cons_zero, ih t]
      simp
    · have h1 : nzFilter (f :: rest) = f :: nzFilter rest := by
        simp [nzFilter, List.filter_cons, hf]
      have hp : (nzFilter rest).prod ≠ 0 := nzFilter_prod_ne_zero rest
      have hhead : ((nzFilter (f :: rest)).prod)⁻¹ * (nzFilter rest).prod = f⁻¹ := by
        rw [h1, List.prod_cons, mul_inv_rev]
        field_simp
      have htmp : ((nzFilter (f :: rest)).prod)⁻¹ * f = ((nzFilter rest).prod)⁻¹ := by
        rw [h1, List.prod_cons, mul_inv_rev]
        field_simp [hf]
        ring
      rw [List.map_cons, suffixProds, if_neg hf, List.cons_append,
        backPass_cons_ne f hf, hhead, htmp, ih t]

theorem firstPass_append (l1 l2 : List F) (t : F) :
    firstPass (l1 ++ l2) t = firstPass l1 t ++ firstPass l2 (t * l1.prod) := by
  induction l1 generalizing t with
  | nil => simp [firstPass]
  | cons f l1 ih =>
    rw [List.cons_append, firstPass, firstPass, ih (t * f), List.cons_append,
      List.prod_cons, mul_assoc]

theorem firstPass_concat_prod (l : List F) (t : F) (h : l ≠ []) :
    ∃ P0, firstPass l t = P0 ++ [t * l.prod] := by
  induction l generalizing t with
  | nil => exact absurd rfl h
  | cons f l ih =>
    rcases Decidable.em (l = []) with hl | hl
    · subst hl
      exact ⟨[], by simp [firstPass]⟩
    · obtain ⟨P0, hP0⟩ := ih (t * f) hl
      refine ⟨(t * f) :: P0, ?_⟩
      rw [firstPass, hP0, List.prod_cons, ← mul_assoc]
      rfl

theorem firstPass_reverse_drop (v : List F) :
    ∃ t, (firstPass (nzFilter v) 1).reverse.drop 1 ++ [1] =
      suffixProds v.reverse ++ t := by
  induction v using List.reverseRecOn with
  | nil => exact ⟨[1], by simp [nzFilter, firstPass, suffixProds]⟩
  | append_singleton rest f ih =>
    obtain ⟨t0, ht0⟩ := ih
    by_cases hf : f = 0
    · refine ⟨t0, ?_⟩
      have h1 : nzFilter (rest ++ [f]) = nzFilter rest := by
        simp [nzFilter, List.filter_append, List.filter_cons, hf]
      rw [h1, List.reverse_append, ht0]
      simp [suffixProds, hf]
    · have h1 : nzFilter (rest ++ [f]) = nzFilter rest ++ [f] := by
        simp [nzFilter, List.filter_append, List.filter_cons, hf]
      have h2 : (rest ++ [f]).reverse = f :: rest.reverse := by
        simp
      have hq : (nzFilter rest.reverse).prod = (nzFilter rest).prod := by
        rw [nzFilter, List.filter_reverse, List.prod_reverse]
        rfl
      rcases Decidable.em (nzFilter rest = []) with hnz | hnz
      · refine ⟨[], ?_⟩
        have h3 : nzFilter rest.reverse = [] := by
          unfold nzFilter at hnz ⊢
          rw [List.filter_reverse, hnz, List.reverse_nil]
        rw [h1, hnz, h2, suffixProds, if_neg hf, nzFilter_nil_of _ h3, h3]
        simp [firstPass]
      · obtain ⟨P0, hP0⟩ := firstPass_concat_prod (nzFilter rest) 1 hnz
        refine ⟨t0, ?_⟩
        rw [h1, firstPass_append, hP0, h2, suffixProds, if_neg hf]
        rw [hP0] at ht0
        simp only [firstPass, List.append_assoc, List.reverse_append,
          List.reverse_cons, List.reverse_nil, List.nil_append, List.cons_append,
          List.drop_succ_cons, List.drop_zero] at ht0 ⊢
        rw [one_mul, hq, ← ht0]

/-- `batch_inversion` replaces every entry by its `⁻¹` image (recalling that
in Lean fields `0⁻¹ = 0`, this says: nonzero entries are inverted, zero
entries are untouched). -/
theorem batchInversion_eq_map_inv (v : List F) :
    batchInversion v = v.map (fun x => x⁻¹) := by
  unfold batchInversion
  obtain ⟨t, ht⟩ := firstPass_reverse_drop v
  have hfold : (nzFilter v).foldl (fun t f => t * f) 1 = (nzFilter v).prod :=
    List.prod_eq_foldl.symm
  have hprod : (nzFilter v).prod = (nzFilter v.reverse).prod := by
    unfold nzFilter
    rw [List.filter_reverse, List.prod_reverse]
  rw [ht, hfold, hprod, backPass_spec, ← List.map_reverse, List.reverse_reverse]

/-! ### Fuel adequacy for the machine-integer helpers -/

theorem nextPowerOfTwoAux_isPow (fuel n : ℕ) : ∃ k, nextPowerOfTwoAux fuel n = 2 ^ k := by
  induction fuel generalizing n with
  | zero => exact ⟨0, rfl⟩
  | succ fuel ih =>
    by_cases h : n ≤ 1
    · exact ⟨0, by simp [nextPowerOfTwoAux, h]⟩
    · obtain ⟨k, hk⟩ := ih ((n + 1) / 2)
      exact ⟨k + 1, by rw [nextPowerOfTwoAux, if_neg h, hk, pow_succ]; ring⟩

theorem nextPowerOfTwo_isPow (n : ℕ) : ∃ k, nextPowerOfTwo n = 2 ^ k :=
  nextPowerOfTwoAux_isPow n n

theorem nextPowerOfTwoAux_two_pow (k : ℕ) :
    ∀ fuel, 2 ^ k ≤ fuel + 1 → nextPowerOfTwoAux fuel (2 ^ k) = 2 ^ k := by
  induction k with
  | zero =>
    intro fuel _
    cases fuel with
    | zero => rfl
    | succ fuel => simp [nextPowerOfTwoAux]
  | succ k ih =>
    intro fuel hfuel
    have h2 : 2 ≤ 2 ^ (k + 1) := by
      calc 2 = 2 ^ 1 := (pow_one 2).symm
      _ ≤ 2 ^ (k + 1) := Nat.pow_le_pow_right (by norm_num) (by omega)
    cases fuel with
    | zero => omega
    | succ fuel =>
      have hhalf : (2 ^ (k + 1) + 1) / 2 = 2 ^ k := by
        rw [pow_succ]
        omega
      rw [nextPowerOfTwoAux, if_neg (by omega), hhalf, ih fuel (by
        have : 2 ^ k < 2 ^ (k + 1) := Nat.pow_lt_pow_right (by norm_num) (by omega)
        omega)]
      rw [pow_succ]
      ring

theorem nextPowerOfTwo_two_pow (k : ℕ) : nextPowerOfTwo (2 ^ k) = 2 ^ k :=
  nextPowerOfTwoAux_two_pow k (2 ^ k) (by omega)

theorem trailingZerosAux_two_pow (k : ℕ) :
    ∀ fuel, 2 ^ k ≤ fuel + 1 → trailingZerosAux fuel (2 ^ k) = k := by
  induction k with
  | zero =>
    intro fuel _
    cases fuel with
    | zero => rfl
    | succ fuel => simp [trailingZerosAux]
  | succ k ih =>
    intro fuel hfuel
    have h2 : 2 ≤ 2 ^ (k + 1) := by
      calc 2 = 2 ^ 1 := (pow_one 2).symm
      _ ≤ 2 ^ (k + 1) := Nat.pow_le_pow_right (by norm_num) (by omega)
    cases fuel with
    | zero => omega
    | succ fuel =>
      have hcond : 2 ^ (k + 1) % 2 = 0 ∧ 2 ^ (k + 1) ≠ 0 := by
        constructor
        · rw [pow_succ]
          omega
        · positivity
      have hhalf : 2 ^ (k + 1) / 2 = 2 ^ k := by
        rw [pow_succ]
        omega
      rw [trailingZerosAux, if_pos hcond, hhalf, ih fuel (by
        have : 2 ^ k < 2 ^ (k + 1) := Nat.pow_lt_pow_right (by norm_num) (by omega)
        omega)]

theorem trailingZeros_two_pow (k : ℕ) : trailingZeros (2 ^ k) = k :=
  trailingZerosAux_two_pow k (2 ^ k) (by omega)

/-! ### Characterization of `get_root_of_unity` without a small subgroup -/

theorem squareIter_eq_pow (x : F) (c : ℕ) : squareIter x c = x ^ 2 ^ c := by
  induction c generalizing x with
  | zero => simp [squareIter]
  | succ c ih =>
    rw [squareIter, ih, ← sq, ← pow_mul, pow_succ]
    ring_nf

theorem getRootOfUnity_two_adic (P : FftParams F)
    (hl : P.largeSubgroupRootOfUnity = none) (k : ℕ) (hk : k ≤ P.TWO_ADICITY) :
    getRootOfUnity P (2 ^ k) =
      some (P.twoAdicRootOfUnity ^ 2 ^ (P.TWO_ADICITY - k)) := by
  rw [getRootOfUnity, hl]
  simp only [nextPowerOfTwo_two_pow, trailingZeros_two_pow, squareIter_eq_pow]
  rw [if_neg (by omega)]

theorem getRootOfUnity_eq_none_iff (P : FftParams F)
    (hl : P.largeSubgroupRootOfUnity = none) (n : ℕ) :
    getRootOfUnity P n = none ↔ ¬∃ k, n = 2 ^ k ∧ k ≤ P.TWO_ADICITY := by
  constructor
  · rintro hnone ⟨k, rfl, hk⟩
    rw [getRootOfUnity_two_adic P hl k hk] at hnone
    exact Option.some_ne_none _ hnone
  · intro hno
    rw [getRootOfUnity, hl]
    simp only
    obtain ⟨K, hK⟩ := nextPowerOfTwo_isPow n
    rw [if_pos]
    by_cases hn : n = nextPowerOfTwo n
    · right
      by_contra hA
      refine hno ⟨K, by rw [hn]; exact hK, ?_⟩
      rw [hK, trailingZeros_two_pow] at hA
      omega
    · left
      exact hn

/-- The root returned for `n = 2 ^ k` is a primitive `n`-th root of unity,
granted the parameter-set invariant that `TWO_ADIC_ROOT_OF_UNITY` is a
primitive `2 ^ TWO_ADICITY`-th root (spec §3: parameter-set invariant). -/
theorem getRootOfUnity_isPrimitiveRoot (P : FftParams F)
    (hprim : IsPrimitiveRoot P.twoAdicRootOfUnity (2 ^ P.TWO_ADICITY))
    (k : ℕ) (hk : k ≤ P.TWO_ADICITY) :
    IsPrimitiveRoot (P.twoAdicRootOfUnity ^ 2 ^ (P.TWO_ADICITY - k)) (2 ^ k) := by
  refine IsPrimitiveRoot.pow (by positivity) hprim ?_
  rw [← pow_add]
  congr 1
  omega

/-! ### Characterization of `new` -/

theorem inverse_eq_none_iff (x : F) : inverse x = none ↔ x = 0 := by
  unfold inverse
  split <;> simp_all

theorem inverse_eq_some_iff (x y : F) : inverse x = some y ↔ x ≠ 0 ∧ y = x⁻¹ := by
  unfold inverse
  split
  · simp_all
  · simp_all
    exact eq_comm

theorem new_eq_none_iff (P : FftParams F) (num_coeffs : ℕ) :
    Radix2EvaluationDomain.new P num_coeffs = none ↔
      (trailingZeros (nextPowerOfTwo num_coeffs) > P.TWO_ADICITY ∨
        getRootOfUnity P (nextPowerOfTwo num_coeffs) = none ∨
        inverse ((nextPowerOfTwo num_coeffs : ℕ) : F) = none ∨
        (∃ g, getRootOfUnity P (nextPowerOfTwo num_coeffs) = some g ∧
          inverse g = none) ∨
        inverse P.mulGenerator = none) := by
  by_cases hlog : trailingZeros (nextPowerOfTwo num_coeffs) > P.TWO_ADICITY
  · simp [Radix2EvaluationDomain.new, hlog]
  · rcases hroot : getRootOfUnity P (nextPowerOfTwo num_coeffs) with _ | g
    · simp [Radix2EvaluationDomain.new, hlog, hroot]
    · rcases hsi : inverse ((nextPowerOfTwo num_coeffs : ℕ) : F) with _ | si
      · simp [Radix2EvaluationDomain.new, hlog, hroot, hsi]
      · rcases hgi : inverse g with _ | gi
        · simp [Radix2EvaluationDomain.new, hlog, hroot, hsi, hgi]
        · rcases hmi : inverse P.mulGenerator with _ | mi
          · simp [Radix2EvaluationDomain.new, hlog, hroot, hsi, hgi, hmi]
          · simp [Radix2EvaluationDomain.new, hlog, hroot, hsi, hgi, hmi]

theorem new_some_spec (P : FftParams F) (num_coeffs : ℕ)
    (d : Radix2EvaluationDomain F)
    (h : Radix2EvaluationDomain.new P num_coeffs = some d) :
    d.size = nextPowerOfTwo num_coeffs ∧
    d.log_size_of_group = trailingZeros d.size ∧
    d.log_size_of_group ≤ P.TWO_ADICITY ∧
    getRootOfUnity P d.size = some d.group_gen ∧
    d.size_as_field_element = ((d.size : ℕ) : F) ∧
    inverse d.size_as_field_element = some d.size_inv ∧
    inverse d.group_gen = some d.group_gen_inv ∧
    inverse P.mulGenerator = some d.generator_inv := by
  by_cases hlog : trailingZeros (nextPowerOfTwo num_coeffs) > P.TWO_ADICITY
  · simp [Radix2EvaluationDomain.new, hlog] at h
  · rcases hroot : getRootOfUnity P (nextPowerOfTwo num_coeffs) with _ | g
    · simp [Radix2EvaluationDomain.new, hlog, hroot] at h
    · rcases hsi : inverse ((nextPowerOfTwo num_coeffs : ℕ) : F) with _ | si
      · simp [Radix2EvaluationDomain.new, hlog, hroot, hsi] at h
      · rcases hgi : inverse g with _ | gi
        · simp [Radix2EvaluationDomain.new, hlog, hroot, hsi, hgi] at h
        · rcases hmi : inverse P.mulGenerator with _ | mi
          · simp [Radix2EvaluationDomain.new, hlog, hroot, hsi, hgi, hmi] at h
          · rcases d with ⟨ds, dlog, dsfe, dsinv, dg, dginv, dmiv⟩
            simp only [Radix2EvaluationDomain.new, hlog, hroot, hsi, hgi, hmi,
              if_false, Option.some.injEq, Radix2EvaluationDomain.mk.injEq] at h
            obtain ⟨h1, h2, h3, h4, h5, h6, h7⟩ := h
            subst h1; subst h2; subst h3; subst h4; subst h5; subst h6; subst h7
            refine ⟨rfl, rfl, ?_, ?_, rfl, ?_, ?_, ?_⟩
            · show trailingZeros (nextPowerOfTwo num_coeffs) ≤ P.TWO_ADICITY
              omega
            · exact hroot
            · exact hsi
            · exact hgi
            · exact rfl

theorem new_isGood (P : FftParams F) (num_coeffs : ℕ)
    (hl : P.largeSubgroupRootOfUnity = none)
    (hprim : IsPrimitiveRoot P.twoAdicRootOfUnity (2 ^ P.TWO_ADICITY))
    (hA : P.TWO_ADICITY < 64)
    (d : Radix2EvaluationDomain F)
    (h : Radix2EvaluationDomain.new P num_coeffs = some d) : IsGood d := by
  obtain ⟨hs, hlog, hle, hroot, hsfe, hsi, hgi, hmi⟩ :=
    new_some_spec P num_coeffs d h
  obtain ⟨K, hK⟩ := nextPowerOfTwo_isPow num_coeffs
  have hsize : d.size = 2 ^ K := by rw [hs, hK]
  have hlogK : d.log_size_of_group = K := by
    rw [hlog, hsize, trailingZeros_two_pow]
  have hKle : K ≤ P.TWO_ADICITY := by rw [hlogK] at hle; exact hle
  have hval : getRootOfUnity P d.size =
      some (P.twoAdicRootOfUnity ^ 2 ^ (P.TWO_ADICITY - K)) := by
    rw [hsize]
    exact getRootOfUnity_two_adic P hl K hKle
  have hg : d.group_gen = P.twoAdicRootOfUnity ^ 2 ^ (P.TWO_ADICITY - K) := by
    rw [hval] at hroot
    exact (Option.some.injEq _ _ ▸ hroot).symm
  constructor
  · rw [hsize, hlogK]
  · rw [hsize]
    exact Nat.pow_lt_pow_right (by norm_num) (by omega)
  · rw [hg, hsize]
    exact getRootOfUnity_isPrimitiveRoot P hprim K hKle
  · exact ((inverse_eq_some_iff _ _).mp hgi).2
  · exact hsfe
  · have := ((inverse_eq_some_iff _ _).mp hsi).2
    rw [hsfe] at this
    exact this
  · have := ((inverse_eq_some_iff _ _).mp hsi).1
    rw [hsfe] at this
    exact this

/-! ## List-access helper lemmas -/

theorem getD_set_self {α : Type} (l : List α) (i : ℕ) (x d : α)
    (h : i < l.length) : (l.set i x).getD i d = x := by
  induction l generalizing i with
  | nil => simp at h
  | cons y l ih =>
    cases i with
    | zero => rfl
    | succ i =>
      simp only [List.set_cons_succ, List.getD_cons_succ]
      exact ih i (by simpa using h)

theorem getD_set_of_ne {α : Type} (l : List α) (i j : ℕ) (x d : α)
    (h : i ≠ j) : (l.set i x).getD j d = l.getD j d := by
  induction l generalizing i j with
  | nil => simp [List.set_nil]
  | cons y l ih =>
    cases i with
    | zero =>
      cases j with
      | zero => exact absurd rfl h
      | succ j => rfl
    | succ i =>
      cases j with
      | zero => rfl
      | succ j =>
        simp only [List.set_cons_succ, List.getD_cons_succ]
        exact ih i j (by omega)

theorem getD_of_le {α : Type} (l : List α) (i : ℕ) (d : α)
    (h : l.length ≤ i) : l.getD i d = d := by
  rw [List.getD_eq_getElem?_getD, List.getElem?_eq_none (by omega)]
  rfl

theorem listSwap_length (l : List F) (i j : ℕ) :
    (listSwap l i j).length = l.length := by
  simp [listSwap]

theorem listSwap_getD (l : List F) (i j p : ℕ) (hp : p < l.length) :
    (listSwap l i j).getD p 0 =
      if p = j then l.getD i 0 else if p = i then l.getD j 0 else l.getD p 0 := by
  unfold listSwap
  by_cases hpj : p = j
  · subst hpj
    rw [getD_set_self _ _ _ _ (by simpa using hp), if_pos rfl]
  · rw [getD_set_of_ne _ _ _ _ _ (by omega), if_neg hpj]
    by_cases hpi : p = i
    · subst hpi
      rw [getD_set_self _ _ _ _ hp, if_pos rfl]
    · rw [getD_set_of_ne _ _ _ _ _ (by omega), if_neg hpi]

/-! ## Bit-reversal lemmas -/

theorem bitreverse_lt (k w : ℕ) : bitreverse k w < 2 ^ w := by
  induction w generalizing k with
  | zero => simp [bitreverse]
  | succ w ih =>
    have h1 : k % 2 ≤ 1 := by omega
    have h2 : bitreverse (k / 2) w < 2 ^ w := ih (k / 2)
    have : bitreverse k (w + 1) = k % 2 * 2 ^ w + bitreverse (k / 2) w := rfl
    rw [this, pow_succ]
    nlinarith

theorem bitreverse_add_pow (w r b : ℕ) (hr : r < 2 ^ w) (hb : b ≤ 1) :
    bitreverse (r + b * 2 ^ w) (w + 1) = 2 * bitreverse r w + b := by
  induction w generalizing r with
  | zero =>
    interval_cases b <;> interval_cases r <;> rfl
  | succ w ih =>
    have he : r + b * 2 ^ (w + 1) = r + 2 * (b * 2 ^ w) := by
      rw [pow_succ]
      ring
    have hx2 : (r + b * 2 ^ (w + 1)) % 2 = r % 2 := by omega
    have hxd : (r + b * 2 ^ (w + 1)) / 2 = r / 2 + b * 2 ^ w := by omega
    have hlhs : bitreverse (r + b * 2 ^ (w + 1)) (w + 1 + 1) =
        (r + b * 2 ^ (w + 1)) % 2 * 2 ^ (w + 1) +
          bitreverse ((r + b * 2 ^ (w + 1)) / 2) (w + 1) := rfl
    have hrhs : bitreverse r (w + 1) = r % 2 * 2 ^ w + bitreverse (r / 2) w := rfl
    rw [hlhs, hx2, hxd, ih (r / 2) (by
      rw [pow_succ] at hr
      omega), hrhs, pow_succ]
    ring

theorem bitreverse_bitreverse (k w : ℕ) (h : k < 2 ^ w) :
    bitreverse (bitreverse k w) w = k := by
  induction w generalizing k with
  | zero =>
    interval_cases k
    rfl
  | succ w ih =>
    have h1 : bitreverse k (w + 1) = bitreverse (k / 2) w + k % 2 * 2 ^ w := by
      have : bitreverse k (w + 1) = k % 2 * 2 ^ w + bitreverse (k / 2) w := rfl
      omega
    rw [h1, bitreverse_add_pow w _ _ (bitreverse_lt _ _) (by omega),
      ih (k / 2) (by
        rw [pow_succ] at h
        omega)]
    omega

theorem bitreverse_two_mul (q w : ℕ) :
    bitreverse (2 * q) (w + 1) = bitreverse q w := by
  have : bitreverse (2 * q) (w + 1) =
      2 * q % 2 * 2 ^ w + bitreverse (2 * q / 2) w := rfl
  rw [this]
  simp [Nat.mul_div_cancel_left _ (by norm_num : (0:ℕ) < 2)]

theorem bitreverse_two_mul_add_one (q w : ℕ) :
    bitreverse (2 * q + 1) (w + 1) = 2 ^ w + bitreverse q w := by
  have : bitreverse (2 * q + 1) (w + 1) =
      (2 * q + 1) % 2 * 2 ^ w + bitreverse ((2 * q + 1) / 2) w := rfl
  rw [this]
  have h1 : (2 * q + 1) % 2 = 1 := by omega
  have h2 : (2 * q + 1) / 2 = q := by omega
  rw [h1, h2, one_mul]

/-! ## Characterization of the bit-reversal permutation loop -/

theorem swapBitrev_foldl_length (L : ℕ) (ks : List ℕ) (acc : List F) :
    (ks.foldl
      (fun acc k =>
        if k < bitreverse k L then listSwap acc k (bitreverse k L) else acc)
      acc).length = acc.length := by
  induction ks generalizing acc with
  | nil => rfl
  | cons k ks ih =>
    rw [List.foldl_cons, ih]
    by_cases h : k < bitreverse k L
    · rw [if_pos h, listSwap_length]
    · rw [if_neg h]

theorem swapBitrevLoop_length (n L : ℕ) (a : List F) :
    (swapBitrevLoop n L a).length = a.length :=
  swapBitrev_foldl_length L _ a

theorem swapBitrev_partial (L : ℕ) (a : List F) (hlen : a.length = 2 ^ L) :
    ∀ (K : ℕ), K ≤ a.length → ∀ (p : ℕ), p < a.length →
      ((List.range K).foldl
        (fun acc k =>
          if k < bitreverse k L then listSwap acc k (bitreverse k L) else acc)
        a).getD p 0 =
        (if min p (bitreverse p L) < K then a.getD (bitreverse p L) 0
          else a.getD p 0) := by
  intro K
  induction K with
  | zero =>
    intro _ p _
    simp
  | succ K ih =>
    intro hK p hp
    have hK' : K ≤ a.length := by omega
    have hKlt : K < a.length := by omega
    have hbrK : bitreverse K L < a.length := by
      rw [hlen]; exact bitreverse_lt K L
    have hbrbrK : bitreverse (bitreverse K L) L = K :=
      bitreverse_bitreverse K L (by rw [← hlen]; exact hKlt)
    have hbrbrp : bitreverse (bitreverse p L) L = p :=
      bitreverse_bitreverse p L (by rw [← hlen]; exact hp)
    have hblen :
        ((List.range K).foldl
          (fun acc k =>
            if k < bitreverse k L then listSwap acc k (bitreverse k L) else acc)
          a).length = a.length := swapBitrev_foldl_length L _ a
    rw [List.range_succ, List.foldl_append, List.foldl_cons, List.foldl_nil]
    by_cases hswap : K < bitreverse K L
    · rw [if_pos hswap,
        listSwap_getD _ _ _ _ (by rw [hblen]; exact hp)]
      by_cases hpj : p = bitreverse K L
      · rw [if_pos hpj, ih hK' K hKlt, if_neg (by omega), hpj, hbrbrK,
          if_pos (by omega)]
      · rw [if_neg hpj]
        by_cases hpi : p = K
        · rw [if_pos hpi, ih hK' (bitreverse K L) hbrK, if_neg (by omega),
            hpi, if_pos (by omega)]
        · rw [if_neg hpi, ih hK' p hp]
          have hne : min p (bitreverse p L) ≠ K := by
            intro hmin
            rcases min_eq_iff.mp hmin with ⟨h1, _⟩ | ⟨h1, _⟩
            · exact hpi h1
            · exact hpj (by rw [← h1]; exact hbrbrp.symm)
          by_cases hlt : min p (bitreverse p L) < K
          · rw [if_pos hlt, if_pos (by omega)]
          · rw [if_neg hlt, if_neg (by omega)]
    · rw [if_neg hswap, ih hK' p hp]
      by_cases hlt : min p (bitreverse p L) < K
      · rw [if_pos hlt, if_pos (by omega)]
      · by_cases heq : min p (bitreverse p L) = K
        · have hfix : bitreverse p L = p := by
            rcases min_eq_iff.mp heq with ⟨h1, h2⟩ | ⟨h1, h2⟩
            · have : bitreverse K L ≤ K := by omega
              rw [h1] at h2 ⊢
              omega
            · have hpK : p = bitreverse K L := by
                rw [← hbrbrp, h1]
              have : bitreverse K L ≤ K := by omega
              omega
          rw [hfix]
          simp
        · rw [if_neg hlt, if_neg (by omega)]

/-- The bit-reversal loop over the full buffer (`n = a.length`) permutes
it: entry `p` of the result is entry `bitreverse p log_n` of the input. -/
theorem swapBitrevLoop_getD (L : ℕ) (a : List F) (hlen : a.length = 2 ^ L)
    (p : ℕ) (hp : p < a.length) :
    (swapBitrevLoop a.length L a).getD p 0 = a.getD (bitreverse p L) 0 := by
  rw [swapBitrevLoop, swapBitrev_partial L a hlen a.length le_rfl p hp,
    if_pos (by omega)]

/-! ## Characterization of the inner butterfly loop -/

theorem butterflyBody_apply (wm : F) (k m : ℕ) (s : List F × F) (j : ℕ)
    (hm : 0 < m) :
    butterflyBody wm k m s j =
      ((s.1.set (k + j + m) (s.1.getD (k + j) 0 - s.1.getD (k + j + m) 0 * s.2)).set
        (k + j) (s.1.getD (k + j) 0 + s.1.getD (k + j + m) 0 * s.2),
        s.2 * wm) := by
  simp only [butterflyBody]
  rw [getD_set_of_ne _ _ _ _ _ (by omega : k + j + m ≠ k + j)]

theorem butterflyBody_length (wm : F) (k m : ℕ) (s : List F × F) (j : ℕ) :
    (butterflyBody wm k m s j).1.length = s.1.length := by
  simp [butterflyBody]

theorem butterflyFold_length (wm : F) (k m : ℕ) (js : List ℕ) (s : List F × F) :
    ((js.foldl (butterflyBody wm k m) s).1.length = s.1.length) := by
  induction js generalizing s with
  | nil => rfl
  | cons j js ih =>
    rw [List.foldl_cons, ih, butterflyBody_length]

theorem butterflyInner_length (wm : F) (k m : ℕ) (a : List F) :
    (butterflyInner wm k m a).length = a.length :=
  butterflyFold_length wm k m _ (a, 1)

theorem butterflyFold_invariant (wm : F) (k m : ℕ) (a : List F) (hm : 0 < m)
    (hk : k + 2 * m ≤ a.length) :
    ∀ J, J ≤ m →
      ((List.range J).foldl (butterflyBody wm k m) (a, 1)).2 = wm ^ J ∧
      ∀ p, p < a.length →
        ((List.range J).foldl (butterflyBody wm k m) (a, 1)).1.getD p 0 =
          (if k ≤ p ∧ p < k + J then a.getD p 0 + a.getD (p + m) 0 * wm ^ (p - k)
          else if k + m ≤ p ∧ p < k + m + J then
            a.getD (p - m) 0 - a.getD p 0 * wm ^ (p - (k + m))
          else a.getD p 0) := by
  intro J
  induction J with
  | zero =>
    intro _
    refine ⟨by simp, fun p hp => ?_⟩
    rw [if_neg (by omega), if_neg (by omega)]
    simp
  | succ J ih =>
    intro hJ
    obtain ⟨hw, hval⟩ := ih (by omega)
    have hlenJ : ((List.range J).foldl (butterflyBody wm k m) (a, 1)).1.length =
        a.length := butterflyFold_length wm k m _ (a, 1)
    have hfold : (List.range (J + 1)).foldl (butterflyBody wm k m) (a, 1) =
        butterflyBody wm k m ((List.range J).foldl (butterflyBody wm k m) (a, 1)) J := by
      rw [List.range_succ, List.foldl_append, List.foldl_cons, List.foldl_nil]
    have hBkJ : ((List.range J).foldl (butterflyBody wm k m) (a, 1)).1.getD (k + J) 0 =
        a.getD (k + J) 0 := by
      rw [hval (k + J) (by omega), if_neg (by omega), if_neg (by omega)]
    have hBkJm : ((List.range J).foldl (butterflyBody wm k m) (a, 1)).1.getD (k + J + m) 0 =
        a.getD (k + J + m) 0 := by
      rw [hval (k + J + m) (by omega), if_neg (by omega), if_neg (by omega)]
    rw [hfold, butterflyBody_apply _ _ _ _ _ hm, hBkJ, hBkJm, hw]
    constructor
    · rw [← pow_succ]
    · intro p hp
      by_cases hp1 : p = k + J
      · subst hp1
        rw [getD_set_self _ _ _ _ (by
            rw [List.length_set, hlenJ]
            omega),
          if_pos (by omega)]
        have h1 : k + J - k = J := by omega
        rw [h1]
      · rw [getD_set_of_ne _ _ _ _ _ (by omega : k + J ≠ p)]
        by_cases hp2 : p = k + J + m
        · subst hp2
          rw [getD_set_self _ _ _ _ (by rw [hlenJ]; omega),
            if_neg (by omega), if_pos (by omega)]
          have h1 : k + J + m - m = k + J := by omega
          have h2 : k + J + m - (k + m) = J := by omega
          rw [h1, h2]
        · rw [getD_set_of_ne _ _ _ _ _ (by omega : k + J + m ≠ p),
            hval p hp]
          by_cases hc1 : k ≤ p ∧ p < k + J
          · rw [if_pos hc1, if_pos (by omega)]
          · rw [if_neg hc1]
            by_cases hc2 : k + m ≤ p ∧ p < k + m + J
            · rw [if_pos hc2, if_neg (by omega), if_pos (by omega)]
            · rw [if_neg hc2, if_neg (by omega), if_neg (by omega)]

/-- Pointwise description of one block of a butterfly stage: inside the
half-open block `[k, k+2m)` the pair `(p, p+m)` is combined with the
twiddle `wm ^ (p - k)`; outside the block the buffer is untouched. -/
theorem butterflyInner_getD (wm : F) (k m : ℕ) (a : List F) (hm : 0 < m)
    (hk : k + 2 * m ≤ a.length) (p : ℕ) (hp : p < a.length) :
    (butterflyInner wm k m a).getD p 0 =
      (if k ≤ p ∧ p < k + m then a.getD p 0 + a.getD (p + m) 0 * wm ^ (p - k)
      else if k + m ≤ p ∧ p < k + 2 * m then
        a.getD (p - m) 0 - a.getD p 0 * wm ^ (p - (k + m))
      else a.getD p 0) := by
  have h := (butterflyFold_invariant wm k m a hm hk m le_rfl).2 p hp
  rw [butterflyInner, h, show k + m + m = k + 2 * m by ring]

/-! ## Characterization of one butterfly stage (all blocks) -/

theorem div_mod_block (m NB p : ℕ) (hm : 0 < 2 * m)
    (h1 : NB * (2 * m) ≤ p) (h2 : p < NB * (2 * m) + 2 * m) :
    p / (2 * m) = NB ∧ p % (2 * m) = p - NB * (2 * m) := by
  have hcomm : 2 * m * NB = NB * (2 * m) := mul_comm _ _
  have ht : p = 2 * m * NB + (p - NB * (2 * m)) := by omega
  constructor
  · rw [ht, Nat.mul_add_div hm, Nat.div_eq_of_lt (by omega)]
    omega
  · rw [ht, Nat.mul_add_mod, Nat.mod_eq_of_lt (by omega)]
    omega

theorem stageFold_length (wm : F) (m : ℕ) (bs : List ℕ) (a : List F) :
    ((bs.foldl (fun acc b => butterflyInner wm (b * (2 * m)) m acc) a)).length =
      a.length := by
  induction bs generalizing a with
  | nil => rfl
  | cons b bs ih =>
    rw [List.foldl_cons, ih, butterflyInner_length]

theorem stageFold_invariant (wm : F) (m : ℕ) (a : List F) (hm : 0 < m)
    (hdvd : 2 * m ∣ a.length) :
    ∀ NB, NB ≤ a.length / (2 * m) → ∀ p, p < a.length →
      ((List.range NB).foldl
        (fun acc b => butterflyInner wm (b * (2 * m)) m acc) a).getD p 0 =
        (if p / (2 * m) < NB then
          (if p % (2 * m) < m then
            a.getD p 0 + a.getD (p + m) 0 * wm ^ (p % (2 * m))
          else a.getD (p - m) 0 - a.getD p 0 * wm ^ (p % (2 * m) - m))
        else a.getD p 0) := by
  have h2m : 0 < 2 * m := by omega
  intro NB
  induction NB with
  | zero =>
    intro _ p _
    simp
  | succ NB ih =>
    intro hNB p hp
    have hval := ih (by omega)
    have hlenB : ((List.range NB).foldl
        (fun acc b => butterflyInner wm (b * (2 * m)) m acc) a).length =
        a.length := stageFold_length wm m _ a
    have hkb : NB * (2 * m) + 2 * m ≤ a.length := by
      have h1 : (NB + 1) * (2 * m) ≤ (a.length / (2 * m)) * (2 * m) :=
        Nat.mul_le_mul_right _ hNB
      rw [Nat.div_mul_cancel hdvd] at h1
      have h2 : (NB + 1) * (2 * m) = NB * (2 * m) + 2 * m := by ring
      omega
    rw [List.range_succ, List.foldl_append, List.foldl_cons, List.foldl_nil,
      butterflyInner_getD wm _ m _ hm (by rw [hlenB]; exact hkb) p
        (by rw [hlenB]; exact hp)]
    by_cases hin : NB * (2 * m) ≤ p ∧ p < NB * (2 * m) + 2 * m
    · obtain ⟨hdivp, hmodp⟩ := div_mod_block m NB p h2m hin.1 hin.2
      by_cases hfirst : NB * (2 * m) ≤ p ∧ p < NB * (2 * m) + m
      · rw [if_pos hfirst]
        have hpm : p + m < a.length := by omega
        obtain ⟨hdivpm, _⟩ := div_mod_block m NB (p + m) h2m (by omega) (by omega)
        rw [hval p hp, if_neg (show ¬p / (2 * m) < NB by omega),
          hval (p + m) hpm, if_neg (show ¬(p + m) / (2 * m) < NB by omega),
          if_pos (show p / (2 * m) < NB + 1 by omega),
          if_pos (show p % (2 * m) < m by omega),
          show p - NB * (2 * m) = p % (2 * m) by omega]
      · rw [if_neg hfirst,
          if_pos (show NB * (2 * m) + m ≤ p ∧ p < NB * (2 * m) + 2 * m by omega)]
        have hpm : p - m < a.length := by omega
        obtain ⟨hdivpm, _⟩ := div_mod_block m NB (p - m) h2m (by omega) (by omega)
        rw [hval p hp, if_neg (show ¬p / (2 * m) < NB by omega),
          hval (p - m) hpm, if_neg (show ¬(p - m) / (2 * m) < NB by omega),
          if_pos (show p / (2 * m) < NB + 1 by omega),
          if_neg (show ¬p % (2 * m) < m by omega),
          show p - (NB * (2 * m) + m) = p % (2 * m) - m by omega]
    · rw [if_neg (show ¬(NB * (2 * m) ≤ p ∧ p < NB * (2 * m) + m) by omega),
        if_neg (show ¬(NB * (2 * m) + m ≤ p ∧ p < NB * (2 * m) + 2 * m) by omega),
        hval p hp]
      by_cases hlow : p < NB * (2 * m)
      · have hdlt : p / (2 * m) < NB := (Nat.div_lt_iff_lt_mul h2m).mpr (by omega)
        rw [if_pos (show p / (2 * m) < NB from hdlt),
          if_pos (show p / (2 * m) < NB + 1 by omega)]
      · have hge : NB * (2 * m) + 2 * m ≤ p := by omega
        have hdge : NB + 1 ≤ p / (2 * m) := by
          rw [Nat.le_div_iff_mul_le h2m]
          have h2 : (NB + 1) * (2 * m) = NB * (2 * m) + 2 * m := by ring
          omega
        rw [if_neg (show ¬p / (2 * m) < NB by omega),
          if_neg (show ¬p / (2 * m) < NB + 1 by omega)]

theorem stageBlocks_count (m n : ℕ) (hm : 0 < m) (hdvd : 2 * m ∣ n) :
    (n + 2 * m - 1) / (2 * m) = n / (2 * m) := by
  obtain ⟨q, hq⟩ := hdvd
  subst hq
  have h2m : 0 < 2 * m := by omega
  rw [Nat.mul_div_cancel_left _ h2m]
  have h1 : 2 * m * q + 2 * m - 1 = 2 * m * q + (2 * m - 1) := by omega
  rw [h1, Nat.mul_add_div h2m, Nat.div_eq_of_lt (by omega)]
  omega

theorem stageBlocks_length (n : ℕ) (wm : F) (m : ℕ) (a : List F) :
    (stageBlocks n wm m a).length = a.length :=
  stageFold_length wm m _ a

/-- Pointwise description of one full butterfly stage with half-block `m`
dividing the buffer length evenly: each block is combined independently. -/
theorem stageBlocks_getD (wm : F) (m : ℕ) (a : List F) (hm : 0 < m)
    (hdvd : 2 * m ∣ a.length) (p : ℕ) (hp : p < a.length) :
    (stageBlocks a.length wm m a).getD p 0 =
      (if p % (2 * m) < m then
        a.getD p 0 + a.getD (p + m) 0 * wm ^ (p % (2 * m))
      else a.getD (p - m) 0 - a.getD p 0 * wm ^ (p % (2 * m) - m)) := by
  have h2m : 0 < 2 * m := by omega
  rw [stageBlocks, stageBlocks_count m a.length hm hdvd,
    stageFold_invariant wm m a hm hdvd (a.length / (2 * m)) le_rfl p hp,
    if_pos ((Nat.div_lt_iff_lt_mul h2m).mpr (by
      rw [Nat.div_mul_cancel hdvd]
      exact hp))]

/-! ## The stage fold computes the DFT -/

theorem sum_range_double {M : Type} [AddCommMonoid M] (f : ℕ → M) (B : ℕ) :
    ∑ v ∈ Finset.range (2 * B), f v =
      (∑ u ∈ Finset.range B, f (2 * u)) + ∑ u ∈ Finset.range B, f (2 * u + 1) := by
  induction B with
  | zero => simp
  | succ B ih =>
    have h : 2 * (B + 1) = 2 * B + 1 + 1 := by ring
    rw [h, Finset.sum_range_succ, Finset.sum_range_succ, ih,
      Finset.sum_range_succ (fun u => f (2 * u)),
      Finset.sum_range_succ (fun u => f (2 * u + 1))]
    abel

/-- The invariant of the staged butterfly fold: after `t` stages the buffer
holds, blockwise, the size-`2^t` DFTs of the input decimated by `2^(L-t)`,
with block `q` drawing from offset `bitreverse q (L-t)`. -/
theorem serialFft_invariant (omega : F) (L : ℕ) (a : List F)
    (hlen : a.length = 2 ^ L) (hbound : a.length < 2 ^ 64)
    (h1 : omega ^ 2 ^ L = 1) (hneg : 0 < L → omega ^ 2 ^ (L - 1) = -1) :
    ∀ t, t ≤ L →
      ((List.range t).foldl
        (fun s _ =>
          (stageBlocks a.length (Field.pow omega [a.length / (2 * s.2)]) s.2 s.1,
            2 * s.2))
        (swapBitrevLoop a.length L a, 1)).2 = 2 ^ t ∧
      ((List.range t).foldl
        (fun s _ =>
          (stageBlocks a.length (Field.pow omega [a.length / (2 * s.2)]) s.2 s.1,
            2 * s.2))
        (swapBitrevLoop a.length L a, 1)).1.length = a.length ∧
      ∀ q r, q < 2 ^ (L - t) → r < 2 ^ t →
        ((List.range t).foldl
          (fun s _ =>
            (stageBlocks a.length (Field.pow omega [a.length / (2 * s.2)]) s.2 s.1,
              2 * s.2))
          (swapBitrevLoop a.length L a, 1)).1.getD (q * 2 ^ t + r) 0 =
          ∑ u ∈ Finset.range (2 ^ t),
            a.getD (u * 2 ^ (L - t) + bitreverse q (L - t)) 0 *
              omega ^ (2 ^ (L - t) * r * u) := by
  intro t
  induction t with
  | zero =>
    intro _
    refine ⟨rfl, swapBitrevLoop_length a.length L a, fun q r hq hr => ?_⟩
    interval_cases r
    simp only [pow_zero, mul_one, Nat.add_zero, Nat.sub_zero, Nat.mul_zero,
      Nat.zero_mul, Finset.range_one, Finset.sum_singleton, Nat.one_mul,
      List.range_zero, List.foldl_nil, zero_add]
    rw [swapBitrevLoop_getD L a hlen q (by rw [hlen]; exact (Nat.sub_zero L ▸ hq))]
  | succ t ih =>
    intro ht
    obtain ⟨hw, hlenB, hval⟩ := ih (by omega)
    have hfold : (List.range (t + 1)).foldl
        (fun s _ =>
          (stageBlocks a.length (Field.pow omega [a.length / (2 * s.2)]) s.2 s.1,
            2 * s.2))
        (swapBitrevLoop a.length L a, 1) =
        (stageBlocks a.length
          (Field.pow omega
            [a.length /
              (2 * ((List.range t).foldl
                (fun s _ =>
                  (stageBlocks a.length (Field.pow omega [a.length / (2 * s.2)])
                    s.2 s.1, 2 * s.2))
                (swapBitrevLoop a.length L a, 1)).2)])
          ((List.range t).foldl
            (fun s _ =>
              (stageBlocks a.length (Field.pow omega [a.length / (2 * s.2)]) s.2
                s.1, 2 * s.2))
            (swapBitrevLoop a.length L a, 1)).2
          ((List.range t).foldl
            (fun s _ =>
              (stageBlocks a.length (Field.pow omega [a.length / (2 * s.2)]) s.2
                s.1, 2 * s.2))
            (swapBitrevLoop a.length L a, 1)).1,
          2 * ((List.range t).foldl
            (fun s _ =>
              (stageBlocks a.length (Field.pow omega [a.length / (2 * s.2)]) s.2
                s.1, 2 * s.2))
            (swapBitrevLoop a.length L a, 1)).2) := by
      rw [List.range_succ, List.foldl_append, List.foldl_cons, List.foldl_nil]
    have hpows : (2 : ℕ) * 2 ^ t = 2 ^ (t + 1) := by
      rw [pow_succ]
      ring
    have hLt : 2 ^ (L - t - 1) * 2 ^ (t + 1) = 2 ^ L := by
      rw [← pow_add]
      congr 1
      omega
    have hLt2 : (2 : ℕ) * 2 ^ (L - t - 1) = 2 ^ (L - t) := by
      rw [← pow_succ']
      congr 1
      omega
    have hdiv : a.length / (2 * 2 ^ t) = 2 ^ (L - t - 1) := by
      rw [hlen, hpows, Nat.pow_div (by omega) (by norm_num),
        show L - (t + 1) = L - t - 1 by omega]
    have hexp : a.length / (2 * 2 ^ t) < 2 ^ 64 := by
      rw [hdiv]
      calc 2 ^ (L - t - 1) ≤ 2 ^ L := Nat.pow_le_pow_right (by norm_num) (by omega)
      _ = a.length := hlen.symm
      _ < 2 ^ 64 := hbound
    have hwm : Field.pow omega [a.length / (2 * 2 ^ t)] =
        omega ^ 2 ^ (L - t - 1) := by
      rw [Field.pow_single _ _ hexp, hdiv]
    have hdvd : 2 * 2 ^ t ∣ a.length := by
      rw [hlen, hpows]
      exact pow_dvd_pow 2 (by omega)
    rw [hfold, hw, hwm]
    refine ⟨by rw [hpows], by rw [stageBlocks_length, hlenB], ?_⟩
    intro q r hq hr
    have hLsub : L - (t + 1) = L - t - 1 := by omega
    rw [hLsub] at hq ⊢
    have hplt : q * 2 ^ (t + 1) + r < a.length := by
      have h2 : (q + 1) * 2 ^ (t + 1) ≤ 2 ^ (L - t - 1) * 2 ^ (t + 1) :=
        Nat.mul_le_mul_right _ (by omega)
      rw [hLt] at h2
      have h3 : (q + 1) * 2 ^ (t + 1) = q * 2 ^ (t + 1) + 2 ^ (t + 1) := by ring
      rw [hlen]
      omega
    have hpltB : q * 2 ^ (t + 1) + r <
        ((List.range t).foldl
          (fun s _ =>
            (stageBlocks a.length (Field.pow omega [a.length / (2 * s.2)]) s.2
              s.1, 2 * s.2))
          (swapBitrevLoop a.length L a, 1)).1.length := by
      rw [hlenB]
      exact hplt
    have hdvdB : 2 * 2 ^ t ∣
        ((List.range t).foldl
          (fun s _ =>
            (stageBlocks a.length (Field.pow omega [a.length / (2 * s.2)]) s.2
              s.1, 2 * s.2))
          (swapBitrevLoop a.length L a, 1)).1.length := by
      rw [hlenB]
      exact hdvd
    have hsg : stageBlocks a.length (omega ^ 2 ^ (L - t - 1)) (2 ^ t) =
        stageBlocks
          ((List.range t).foldl
            (fun s _ =>
              (stageBlocks a.length (Field.pow omega [a.length / (2 * s.2)]) s.2
                s.1, 2 * s.2))
            (swapBitrevLoop a.length L a, 1)).1.length (omega ^ 2 ^ (L - t - 1)) (2 ^ t) := by
      rw [hlenB]
    rw [hsg, stageBlocks_getD _ _ _ (by positivity) hdvdB _ hpltB]
    clear hsg
    obtain ⟨hdivp, hmodp⟩ := div_mod_block (2 ^ t) q (q * 2 ^ (t + 1) + r)
      (by positivity)
      (by rw [hpows]; omega)
      (by rw [hpows]; omega)
    have hq2m : q * (2 * 2 ^ t) = q * 2 ^ (t + 1) := by rw [hpows]
    have hmodr : (q * 2 ^ (t + 1) + r) % (2 * 2 ^ t) = r := by
      rw [hmodp]
      omega
    rw [hmodr]
    have hql : 2 * q * 2 ^ t = q * 2 ^ (t + 1) := by
      rw [← hpows]
      ring
    have hq1l : (2 * q + 1) * 2 ^ t = q * 2 ^ (t + 1) + 2 ^ t := by
      rw [← hpows]
      ring
    have hq2 : 2 * q < 2 ^ (L - t) := by
      rw [← hLt2]
      omega
    have hq21 : 2 * q + 1 < 2 ^ (L - t) := by
      rw [← hLt2]
      omega
    have hw1 : L - t = L - t - 1 + 1 := by omega
    have hbr2 : bitreverse (2 * q) (L - t) = bitreverse q (L - t - 1) := by
      conv_lhs => rw [hw1]
      exact bitreverse_two_mul q (L - t - 1)
    have hbr21 : bitreverse (2 * q + 1) (L - t) =
        2 ^ (L - t - 1) + bitreverse q (L - t - 1) := by
      conv_lhs => rw [hw1]
      exact bitreverse_two_mul_add_one q (L - t - 1)
    have hLL : 2 ^ (L - t) * 2 ^ t = 2 ^ L := by
      rw [← pow_add]
      congr 1
      omega
    have hL1 : 2 ^ (L - t - 1) * 2 ^ t = 2 ^ (L - 1) := by
      rw [← pow_add]
      congr 1
      omega
    rw [show (2 : ℕ) ^ (t + 1) = 2 * 2 ^ t from hpows.symm, sum_range_double]
    by_cases hcase : r < 2 ^ t
    · rw [if_pos hcase]
      have hB1 : ((List.range t).foldl
          (fun s _ =>
            (stageBlocks a.length (Field.pow omega [a.length / (2 * s.2)]) s.2
              s.1, 2 * s.2))
          (swapBitrevLoop a.length L a, 1)).1.getD (q * (2 * 2 ^ t) + r) 0 =
          ∑ u ∈ Finset.range (2 ^ t),
            a.getD (u * 2 ^ (L - t) + bitreverse (2 * q) (L - t)) 0 *
              omega ^ (2 ^ (L - t) * r * u) := by
        rw [show q * (2 * 2 ^ t) + r = 2 * q * 2 ^ t + r by ring]
        exact hval (2 * q) r hq2 hcase
      have hB2 : ((List.range t).foldl
          (fun s _ =>
            (stageBlocks a.length (Field.pow omega [a.length / (2 * s.2)]) s.2
              s.1, 2 * s.2))
          (swapBitrevLoop a.length L a, 1)).1.getD (q * (2 * 2 ^ t) + r + 2 ^ t) 0 =
          ∑ u ∈ Finset.range (2 ^ t),
            a.getD (u * 2 ^ (L - t) + bitreverse (2 * q + 1) (L - t)) 0 *
              omega ^ (2 ^ (L - t) * r * u) := by
        rw [show q * (2 * 2 ^ t) + r + 2 ^ t = (2 * q + 1) * 2 ^ t + r by ring]
        exact hval (2 * q + 1) r hq21 hcase
      rw [hB1, hB2, Finset.sum_mul]
      congr 1
      · refine Finset.sum_congr rfl fun u hu => ?_
        have hidx : 2 * u * 2 ^ (L - t - 1) + bitreverse q (L - t - 1) =
            u * 2 ^ (L - t) + bitreverse (2 * q) (L - t) := by
          rw [hbr2, ← hLt2]
          ring
        have hexp2 : 2 ^ (L - t - 1) * r * (2 * u) = 2 ^ (L - t) * r * u := by
          rw [← hLt2]
          ring
        rw [hidx, hexp2]
      · refine Finset.sum_congr rfl fun u hu => ?_
        have hidx : (2 * u + 1) * 2 ^ (L - t - 1) + bitreverse q (L - t - 1) =
            u * 2 ^ (L - t) + bitreverse (2 * q + 1) (L - t) := by
          rw [hbr21, ← hLt2]
          ring
        have hexp2 : 2 ^ (L - t - 1) * r * (2 * u + 1) =
            2 ^ (L - t) * r * u + 2 ^ (L - t - 1) * r := by
          rw [← hLt2]
          ring
        rw [hidx, hexp2, pow_add, ← pow_mul, ← mul_assoc]
    · rw [if_neg hcase]
      obtain ⟨j, rfl⟩ : ∃ j, r = j + 2 ^ t := ⟨r - 2 ^ t, by omega⟩
      have hjlt : j < 2 ^ t := by omega
      rw [Nat.add_sub_cancel]
      have hB1 : ((List.range t).foldl
          (fun s _ =>
            (stageBlocks a.length (Field.pow omega [a.length / (2 * s.2)]) s.2
              s.1, 2 * s.2))
          (swapBitrevLoop a.length L a, 1)).1.getD (q * (2 * 2 ^ t) + (j + 2 ^ t) - 2 ^ t) 0 =
          ∑ u ∈ Finset.range (2 ^ t),
            a.getD (u * 2 ^ (L - t) + bitreverse (2 * q) (L - t)) 0 *
              omega ^ (2 ^ (L - t) * j * u) := by
        rw [show q * (2 * 2 ^ t) + (j + 2 ^ t) - 2 ^ t = 2 * q * 2 ^ t + j by
          have hc : q * (2 * 2 ^ t) = 2 * q * 2 ^ t := by ring
          omega]
        exact hval (2 * q) j hq2 hjlt
      have hB2 : ((List.range t).foldl
          (fun s _ =>
            (stageBlocks a.length (Field.pow omega [a.length / (2 * s.2)]) s.2
              s.1, 2 * s.2))
          (swapBitrevLoop a.length L a, 1)).1.getD (q * (2 * 2 ^ t) + (j + 2 ^ t)) 0 =
          ∑ u ∈ Finset.range (2 ^ t),
            a.getD (u * 2 ^ (L - t) + bitreverse (2 * q + 1) (L - t)) 0 *
              omega ^ (2 ^ (L - t) * j * u) := by
        rw [show q * (2 * 2 ^ t) + (j + 2 ^ t) = (2 * q + 1) * 2 ^ t + j by ring]
        exact hval (2 * q + 1) j hq21 hjlt
      rw [hB1, hB2, Finset.sum_mul]
      have hnegL : omega ^ 2 ^ (L - 1) = -1 := hneg (by omega)
      have heven : ∀ u ∈ Finset.range (2 ^ t),
          a.getD (2 * u * 2 ^ (L - t - 1) + bitreverse q (L - t - 1)) 0 *
            omega ^ (2 ^ (L - t - 1) * (j + 2 ^ t) * (2 * u)) =
          a.getD (u * 2 ^ (L - t) + bitreverse (2 * q) (L - t)) 0 *
            omega ^ (2 ^ (L - t) * j * u) := by
        intro u hu
        have hidx : 2 * u * 2 ^ (L - t - 1) + bitreverse q (L - t - 1) =
            u * 2 ^ (L - t) + bitreverse (2 * q) (L - t) := by
          rw [hbr2, ← hLt2]
          ring
        have hexp2 : 2 ^ (L - t - 1) * (j + 2 ^ t) * (2 * u) =
            2 ^ (L - t) * j * u + 2 ^ L * u := by
          rw [← hLt2, ← hLL, ← hLt2]
          ring
        rw [hidx, hexp2, pow_add,
          show omega ^ (2 ^ L * u) = (omega ^ 2 ^ L) ^ u from pow_mul omega _ u,
          h1, one_pow, mul_one]
      have hodd : ∀ u ∈ Finset.range (2 ^ t),
          a.getD ((2 * u + 1) * 2 ^ (L - t - 1) + bitreverse q (L - t - 1)) 0 *
            omega ^ (2 ^ (L - t - 1) * (j + 2 ^ t) * (2 * u + 1)) =
          -(a.getD (u * 2 ^ (L - t) + bitreverse (2 * q + 1) (L - t)) 0 *
            omega ^ (2 ^ (L - t) * j * u) * (omega ^ 2 ^ (L - t - 1)) ^ j) := by
        intro u hu
        have hidx : (2 * u + 1) * 2 ^ (L - t - 1) + bitreverse q (L - t - 1) =
            u * 2 ^ (L - t) + bitreverse (2 * q + 1) (L - t) := by
          rw [hbr21, ← hLt2]
          ring
        have hexp2 : 2 ^ (L - t - 1) * (j + 2 ^ t) * (2 * u + 1) =
            2 ^ (L - t) * j * u + 2 ^ L * u +
              (2 ^ (L - t - 1) * j + 2 ^ (L - 1)) := by
          rw [← hLt2, ← hLL, ← hLt2, ← hL1]
          ring
        rw [hidx, hexp2, pow_add, pow_add, pow_add,
          show omega ^ (2 ^ L * u) = (omega ^ 2 ^ L) ^ u from pow_mul omega _ u,
          h1, one_pow,
          show omega ^ (2 ^ (L - t - 1) * j) = (omega ^ 2 ^ (L - t - 1)) ^ j from
            pow_mul omega _ j,
          hnegL]
        ring
      rw [Finset.sum_congr rfl heven, Finset.sum_congr rfl hodd,
        Finset.sum_neg_distrib]
      rw [← Finset.sum_mul]
      ring

/-! ## The serial kernel computes the DFT; round trip -/

theorem serialFold_length (omega : F) (N : ℕ) (ks : List ℕ) (s : List F × ℕ) :
    ((ks.foldl
      (fun s _ =>
        (stageBlocks N (Field.pow omega [N / (2 * s.2)]) s.2 s.1, 2 * s.2))
      s).1.length = s.1.length) := by
  induction ks generalizing s with
  | nil => rfl
  | cons k ks ih =>
    rw [List.foldl_cons, ih, stageBlocks_length]

theorem serialRadix2Fft_length (a : List F) (omega : F) (log_n : ℕ) :
    (serialRadix2Fft a omega log_n).length = a.length := by
  rw [serialRadix2Fft, serialFold_length, swapBitrevLoop_length]

/-- `serial_radix2_fft` on a buffer short enough that the `u32` length cast
does not wrap evaluates the input as a polynomial at the powers of `omega`:
entry `r` of the output is `∑_u a[u] * omega^(r*u)`. -/
theorem serialRadix2Fft_getD (omega : F) (L : ℕ) (a : List F)
    (hlen : a.length = 2 ^ L) (hbound : a.length < 2 ^ 32)
    (h1 : omega ^ 2 ^ L = 1) (hneg : 0 < L → omega ^ 2 ^ (L - 1) = -1)
    (r : ℕ) (hr : r < 2 ^ L) :
    (serialRadix2Fft a omega L).getD r 0 =
      ∑ u ∈ Finset.range (2 ^ L), a.getD u 0 * omega ^ (r * u) := by
  have hmod : a.length % 2 ^ 32 = a.length := Nat.mod_eq_of_lt hbound
  have h := (serialFft_invariant omega L a hlen
    (lt_trans hbound (by norm_num)) h1 hneg L le_rfl).2.2 0 r (by simp) hr
  simp only [Nat.sub_self, pow_zero, mul_one, one_mul, Nat.zero_mul,
    zero_add, Nat.add_zero, bitreverse] at h
  rw [serialRadix2Fft, hmod]
  convert h using 2

theorem sum_pow_eq_ite (n : ℕ) (y : F) (hy : y ^ n = 1) :
    ∑ i ∈ Finset.range n, y ^ i = if y = 1 then (n : F) else 0 := by
  by_cases h : y = 1
  · subst h
    simp
  · rw [if_neg h, geom_sum_eq h, hy, sub_self, zero_div]

theorem prim_pow_half_eq_neg_one (L : ℕ) (hL : 0 < L) (omega : F)
    (hprim : IsPrimitiveRoot omega (2 ^ L)) : omega ^ 2 ^ (L - 1) = -1 := by
  have hsq : omega ^ 2 ^ (L - 1) * omega ^ 2 ^ (L - 1) = 1 := by
    rw [← pow_add, show 2 ^ (L - 1) + 2 ^ (L - 1) = 2 ^ L by
      rw [← two_mul, ← pow_succ']
      congr 1
      omega]
    exact hprim.pow_eq_one
  rcases mul_self_eq_one_iff.mp hsq with h | h
  · exfalso
    have hdvd : 2 ^ L ∣ 2 ^ (L - 1) := (hprim.pow_eq_one_iff_dvd _).mp h
    have := Nat.le_of_dvd (by positivity) hdvd
    have h2 : (2 : ℕ) ^ (L - 1) < 2 ^ L := Nat.pow_lt_pow_right (by norm_num) (by omega)
    omega
  · exact h

theorem orth_sum (omega : F) (L : ℕ) (hprim : IsPrimitiveRoot omega (2 ^ L))
    (jj kk : ℕ) (hj : jj < 2 ^ L) (hk : kk < 2 ^ L) :
    ∑ i ∈ Finset.range (2 ^ L), (omega ^ jj * omega⁻¹ ^ kk) ^ i =
      if jj = kk then ((2 ^ L : ℕ) : F) else 0 := by
  have hn0 : (0 : ℕ) < 2 ^ L := by positivity
  have hw0 : omega ≠ 0 := by
    intro h0
    have h1 := hprim.pow_eq_one
    rw [h0, zero_pow (by omega)] at h1
    exact zero_ne_one h1
  have hyn : (omega ^ jj * omega⁻¹ ^ kk) ^ (2 ^ L) = 1 := by
    rw [mul_pow, ← pow_mul, ← pow_mul, mul_comm jj (2 ^ L), mul_comm kk (2 ^ L),
      pow_mul, pow_mul, hprim.pow_eq_one, inv_pow, hprim.pow_eq_one, one_pow,
      inv_one, one_pow, one_mul]
  have heq : omega ^ jj * omega⁻¹ ^ kk = 1 ↔ jj = kk := by
    rw [inv_pow, mul_inv_eq_one₀ (pow_ne_zero _ hw0)]
    constructor
    · exact fun h => hprim.pow_inj hj hk h
    · rintro rfl
      rfl
  rw [sum_pow_eq_ite _ _ hyn]
  by_cases h : jj = kk
  · rw [if_pos (heq.mpr h), if_pos h]
  · rw [if_neg (fun hy1 => h (heq.mp hy1)), if_neg h]

/-- Running the kernel with `omega` and then with `omega⁻¹` multiplies every
entry by the (field image of the) length. -/
theorem serial_roundtrip_getD (omega : F) (L : ℕ) (x : List F)
    (hlen : x.length = 2 ^ L) (hbound : x.length < 2 ^ 32)
    (hprim : IsPrimitiveRoot omega (2 ^ L)) (k : ℕ) (hk : k < 2 ^ L) :
    (serialRadix2Fft (serialRadix2Fft x omega L) omega⁻¹ L).getD k 0 =
      ((2 ^ L : ℕ) : F) * x.getD k 0 := by
  have h1 : omega ^ 2 ^ L = 1 := hprim.pow_eq_one
  have hneg : 0 < L → omega ^ 2 ^ (L - 1) = -1 := fun hL =>
    prim_pow_half_eq_neg_one L hL omega hprim
  have hprimInv : IsPrimitiveRoot omega⁻¹ (2 ^ L) := hprim.inv
  have h1i : omega⁻¹ ^ 2 ^ L = 1 := hprimInv.pow_eq_one
  have hnegi : 0 < L → omega⁻¹ ^ 2 ^ (L - 1) = -1 := fun hL =>
    prim_pow_half_eq_neg_one L hL omega⁻¹ hprimInv
  have hlen2 : (serialRadix2Fft x omega L).length = 2 ^ L := by
    rw [serialRadix2Fft_length, hlen]
  have hbound2 : (serialRadix2Fft x omega L).length < 2 ^ 32 := by
    rw [hlen2, ← hlen]
    exact hbound
  rw [serialRadix2Fft_getD omega⁻¹ L _ hlen2 hbound2 h1i hnegi k hk]
  have hstep1 : ∀ u ∈ Finset.range (2 ^ L),
      (serialRadix2Fft x omega L).getD u 0 * omega⁻¹ ^ (k * u) =
        ∑ j ∈ Finset.range (2 ^ L),
          x.getD j 0 * ((omega ^ j * omega⁻¹ ^ k) ^ u) := by
    intro u hu
    rw [serialRadix2Fft_getD omega L x hlen hbound h1 hneg u
      (Finset.mem_range.mp hu), Finset.sum_mul]
    refine Finset.sum_congr rfl fun j hj => ?_
    rw [mul_pow, ← pow_mul, ← pow_mul, mul_assoc, mul_comm j u, mul_comm k u]
  rw [Finset.sum_congr rfl hstep1, Finset.sum_comm]
  have hstep2 : ∀ j ∈ Finset.range (2 ^ L),
      (∑ u ∈ Finset.range (2 ^ L),
        x.getD j 0 * ((omega ^ j * omega⁻¹ ^ k) ^ u)) =
        if j = k then x.getD j 0 * ((2 ^ L : ℕ) : F) else 0 := by
    intro j hj
    rw [← Finset.mul_sum, orth_sum omega L hprim j k (Finset.mem_range.mp hj) hk]
    by_cases h : j = k
    · rw [if_pos h, if_pos h]
    · rw [if_neg h, if_neg h, mul_zero]
  rw [Finset.sum_congr rfl hstep2, Finset.sum_ite_eq' (Finset.range (2 ^ L)) k
    (fun j => x.getD j 0 * ((2 ^ L : ℕ) : F)), if_pos (Finset.mem_range.mpr hk),
    mul_comm]

/-! ## Buffer-resize lemmas and the in-place round trip -/

theorem getD_append_left {α : Type} (l1 l2 : List α) (p : ℕ) (d : α)
    (h : p < l1.length) : (l1 ++ l2).getD p d = l1.getD p d := by
  induction l1 generalizing p with
  | nil => simp at h
  | cons x l1 ih =>
    cases p with
    | zero => rfl
    | succ p => exact ih p (by simpa using h)

theorem getD_append_right {α : Type} (l1 l2 : List α) (p : ℕ) (d : α)
    (h : l1.length ≤ p) : (l1 ++ l2).getD p d = l2.getD (p - l1.length) d := by
  induction l1 generalizing p with
  | nil => simp
  | cons x l1 ih =>
    cases p with
    | zero => simp at h
    | succ p =>
      simp only [List.cons_append, List.getD_cons_succ, List.length_cons]
      rw [ih p (by simpa using h)]
      congr 1
      omega

theorem getD_take {α : Type} (l : List α) (n p : ℕ) (d : α) (h : p < n) :
    (l.take n).getD p d = l.getD p d := by
  induction l generalizing n p with
  | nil => simp
  | cons x l ih =>
    cases n with
    | zero => omega
    | succ n =>
      cases p with
      | zero => rfl
      | succ p =>
        simp only [List.take_succ_cons, List.getD_cons_succ]
        exact ih n p (by omega)

theorem getD_replicate_zero (c i : ℕ) : (List.replicate c (0 : F)).getD i 0 = 0 := by
  induction c generalizing i with
  | zero => simp
  | succ c ih =>
    cases i with
    | zero => rfl
    | succ i => exact ih i

theorem listResize_length (l : List F) (n : ℕ) (x : F) :
    (listResize l n x).length = n := by
  simp [listResize]
  omega

theorem listResize_getD (l : List F) (n p : ℕ) (hp : p < n) :
    (listResize l n 0).getD p 0 = l.getD p 0 := by
  by_cases hpl : p < l.length
  · rw [listResize, getD_append_left _ _ _ _ (by
      rw [List.length_take]
      omega)]
    exact getD_take l n p 0 hp
  · rw [listResize, getD_append_right _ _ _ _ (by
      rw [List.length_take]
      omega), List.length_take]
    rw [getD_replicate_zero, getD_of_le l p 0 (by omega)]

theorem listResize_self (l : List F) (n : ℕ) (x : F) (h : l.length = n) :
    listResize l n x = l := by
  rw [listResize, ← h, List.take_length, Nat.sub_self, List.replicate_zero,
    List.append_nil]

theorem listResize_of_le (l : List F) (n : ℕ) (x : F) (h : l.length ≤ n) :
    listResize l n x = l ++ List.replicate (n - l.length) x := by
  rw [listResize, List.take_of_length_le h]

theorem listResize_of_ge (l : List F) (n : ℕ) (x : F) (h : n ≤ l.length) :
    listResize l n x = l.take n := by
  rw [listResize, Nat.sub_eq_zero_of_le h, List.replicate_zero, List.append_nil]

theorem getD_map_mul (l : List F) (c : F) (p : ℕ) (hp : p < l.length) :
    (l.map (fun v => v * c)).getD p 0 = l.getD p 0 * c := by
  induction l generalizing p with
  | nil => simp at hp
  | cons x l ih =>
    cases p with
    | zero => rfl
    | succ p => exact ih p (by simpa using hp)

theorem list_ext_getD {α : Type} (l1 l2 : List α) (d : α)
    (hlen : l1.length = l2.length)
    (h : ∀ i, i < l1.length → l1.getD i d = l2.getD i d) : l1 = l2 := by
  induction l1 generalizing l2 with
  | nil =>
    cases l2 with
    | nil => rfl
    | cons y l2 => simp at hlen
  | cons x l1 ih =>
    cases l2 with
    | nil => simp at hlen
    | cons y l2 =>
      have h0 : x = y := h 0 (by simp)
      have hrest : l1 = l2 := by
        refine ih l2 (by simpa using hlen) fun i hi => ?_
        exact h (i + 1) (by simpa using hi)
      rw [h0, hrest]

/-- The FFT/IFFT round trip at the `fft_in_place`/`ifft_in_place` level:
for a domain small enough that the kernel's `u32` length cast does not wrap
and a buffer no longer than the domain, the inverse transform of the
forward transform returns the original entries zero-padded to the domain
size. -/
theorem ifftInPlace_fftInPlace (d : Radix2EvaluationDomain F) (hd : IsGood d)
    (hsize32 : d.size < 2 ^ 32) (v : List F) (hv : v.length ≤ d.size) :
    ifftInPlace d (fftInPlace d v) = v ++ List.replicate (d.size - v.length) 0 := by
  have hsize : d.size = 2 ^ d.log_size_of_group := hd.size_eq
  have hvplen : (listResize v d.size 0).length = 2 ^ d.log_size_of_group := by
    rw [listResize_length, hsize]
  have hvpbound : (listResize v d.size 0).length < 2 ^ 32 := by
    rw [hvplen, ← hsize]
    exact hsize32
  have hprim : IsPrimitiveRoot d.group_gen (2 ^ d.log_size_of_group) :=
    hsize ▸ hd.prim
  have hfft : fftInPlace d v =
      serialRadix2Fft (listResize v d.size 0) d.group_gen d.log_size_of_group :=
    rfl
  have hfftlen : (fftInPlace d v).length = 2 ^ d.log_size_of_group := by
    rw [hfft, serialRadix2Fft_length, hvplen]
  have hresize2 : listResize (fftInPlace d v) d.size 0 = fftInPlace d v :=
    listResize_self _ _ _ (by rw [hfftlen, hsize])
  have hifft : ifftInPlace d (fftInPlace d v) =
      (serialRadix2Fft
        (serialRadix2Fft (listResize v d.size 0) d.group_gen d.log_size_of_group)
        d.group_gen⁻¹ d.log_size_of_group).map (fun x => x * d.size_inv) := by
    rw [ifftInPlace, hresize2, hfft, hd.gen_inv]
    rfl
  refine list_ext_getD _ _ 0 ?_ ?_
  · rw [hifft, List.length_map, serialRadix2Fft_length, serialRadix2Fft_length,
      hvplen, List.length_append, List.length_replicate, ← hsize]
    omega
  · intro i hi
    have hilen : i < 2 ^ d.log_size_of_group := by
      rw [hifft, List.length_map, serialRadix2Fft_length,
        serialRadix2Fft_length, hvplen] at hi
      exact hi
    rw [hifft, getD_map_mul _ _ _ (by
        rw [serialRadix2Fft_length, serialRadix2Fft_length, hvplen]
        exact hilen),
      serial_roundtrip_getD d.group_gen d.log_size_of_group _ hvplen hvpbound
        hprim i hilen, hd.sinv,
      show ((d.size : ℕ) : F) = ((2 ^ d.log_size_of_group : ℕ) : F) by rw [hsize]]
    have hne : ((2 ^ d.log_size_of_group : ℕ) : F) ≠ 0 := by
      rw [show ((2 ^ d.log_size_of_group : ℕ) : F) = ((d.size : ℕ) : F) by
        rw [hsize]]
      exact hd.cast_ne
    rw [mul_comm, ← mul_assoc, inv_mul_cancel₀ hne, one_mul,
      show v ++ List.replicate (d.size - v.length) 0 = listResize v d.size 0 from
        (listResize_of_le v d.size 0 hv).symm]

/-! ## Lagrange coefficients: loop characterizations -/

theorem lagrangeUVLoop_spec (g tau : F) (c : ℕ) (l r : F) :
    lagrangeUVLoop g tau c l r =
      ((List.range c).map (fun i => tau - r * g ^ i),
        (List.range c).map (fun i => l * g ^ i)) := by
  induction c generalizing l r with
  | zero => rfl
  | succ c ih =>
    rw [lagrangeUVLoop, ih (l * g) (r * g), List.range_succ_eq_map,
      List.map_cons, List.map_cons, List.map_map, List.map_map]
    simp only [pow_zero, mul_one]
    rw [Prod.mk.injEq]
    refine ⟨?_, ?_⟩
    · congr 1
      refine List.map_congr_left fun i hi => ?_
      simp only [Function.comp_apply]
      rw [pow_succ]
      ring
    · congr 1
      refine List.map_congr_left fun i hi => ?_
      simp only [Function.comp_apply]
      rw [pow_succ]
      ring

theorem lagrangeIndicatorLoop_found (g tau : F) :
    ∀ (c : ℕ) (w : F) (i0 : ℕ), i0 < c → w * g ^ i0 = tau →
      (∀ i, i < i0 → w * g ^ i ≠ tau) →
      lagrangeIndicatorLoop g tau c w = (List.replicate c (0 : F)).set i0 1 := by
  intro c
  induction c with
  | zero =>
    intro w i0 h
    omega
  | succ c ih =>
    intro w i0 hlt hfound hmin
    by_cases hw : w = tau
    · have hi0 : i0 = 0 := by
        by_contra hne
        exact hmin 0 (by omega) (by rw [pow_zero, mul_one]; exact hw)
      subst hi0
      rw [lagrangeIndicatorLoop, if_pos hw, List.replicate_succ]
      rfl
    · have hi0 : i0 ≠ 0 := by
        intro h0
        subst h0
        rw [pow_zero, mul_one] at hfound
        exact hw hfound
      obtain ⟨i1, rfl⟩ : ∃ i1, i0 = i1 + 1 := ⟨i0 - 1, by omega⟩
      rw [lagrangeIndicatorLoop, if_neg hw, List.replicate_succ]
      have hrec := ih (w * g) i1 (by omega)
        (by rw [mul_assoc, ← pow_succ']
            exact hfound)
        (fun i hi => by
          rw [mul_assoc, ← pow_succ']
          exact hmin (i + 1) (by omega))
      rw [hrec]
      rfl

theorem lagrangeIndicatorLoop_sum (g tau : F) (n i : ℕ) (hi : i < n) :
    ((List.replicate n (0 : F)).set i 1).sum = 1 := by
  induction n generalizing i with
  | zero => omega
  | succ n ih =>
    cases i with
    | zero =>
      rw [List.replicate_succ]
      simp [List.sum_replicate]
    | succ i =>
      rw [List.replicate_succ, List.set_cons_succ, List.sum_cons,
        ih i (by omega), zero_add]

theorem zipWith_map_same {α β γ δ : Type} (f : β → γ → δ) (A : α → β)
    (B : α → γ) (l : List α) :
    List.zipWith f (l.map A) (l.map B) = l.map (fun x => f (A x) (B x)) := by
  induction l with
  | nil => rfl
  | cons x l ih => simp [ih]

/-! ## Lagrange coefficients: the two cases and the sum -/

theorem list_map_range_sum (f : ℕ → F) (n : ℕ) :
    ((List.range n).map f).sum = ∑ i ∈ Finset.range n, f i := by
  induction n with
  | zero => rfl
  | succ n ih =>
    rw [List.range_succ, List.map_append, List.sum_append, ih,
      Finset.sum_range_succ]
    simp

theorem isGood_size_pos (d : Radix2EvaluationDomain F) (hd : IsGood d) :
    0 < d.size := by
  rw [hd.size_eq]
  positivity

theorem isGood_gen_ne_zero (d : Radix2EvaluationDomain F) (hd : IsGood d) :
    d.group_gen ≠ 0 := by
  intro h0
  have h1 := hd.prim.pow_eq_one
  rw [h0, zero_pow (isGood_size_pos d hd).ne'] at h1
  exact zero_ne_one h1

/-- The general case of `evaluate_all_lagrange_coefficients`: entry `i` is
`(tau^size - 1) * size_inv * gen^i / (tau - gen^i)`. -/
theorem evaluateAll_general (d : Radix2EvaluationDomain F) (hd : IsGood d)
    (tau : F) (htau : tau ^ d.size ≠ 1) :
    evaluateAllLagrangeCoefficients d tau =
      (List.range d.size).map
        (fun i => (tau ^ d.size - 1) * d.size_inv * d.group_gen ^ i *
          (tau - d.group_gen ^ i)⁻¹) := by
  have hpow : Field.pow tau [d.size] = tau ^ d.size :=
    Field.pow_single _ _ hd.size_lt
  rw [evaluateAllLagrangeCoefficients, hpow, if_neg htau, lagrangeUVLoop_spec]
  simp only [batchInversion_eq_map_inv, List.map_map, zipWith_map_same]
  refine List.map_congr_left fun i hi => ?_
  simp only [Function.comp_apply, one_mul]

theorem lagrange_sum_general (d : Radix2EvaluationDomain F) (hd : IsGood d)
    (tau : F) (htau : tau ^ d.size ≠ 1) :
    ((List.range d.size).map
      (fun i => (tau ^ d.size - 1) * d.size_inv * d.group_gen ^ i *
        (tau - d.group_gen ^ i)⁻¹)).sum = 1 := by
  have hn0 : 0 < d.size := isGood_size_pos d hd
  have hg0 : d.group_gen ≠ 0 := isGood_gen_ne_zero d hd
  have hNe : ((d.size : ℕ) : F) ≠ 0 := hd.cast_ne
  rw [list_map_range_sum]
  have hterm : ∀ i ∈ Finset.range d.size,
      (tau ^ d.size - 1) * d.size_inv * d.group_gen ^ i *
        (tau - d.group_gen ^ i)⁻¹ =
      (∑ k ∈ Finset.range d.size, tau ^ k * ((d.group_gen⁻¹) ^ k) ^ i) *
        d.size_inv := by
    intro i hi
    have hgi0 : d.group_gen ^ i ≠ 0 := pow_ne_zero _ hg0
    have hgin : (d.group_gen ^ i) ^ d.size = 1 := by
      rw [← pow_mul, mul_comm, pow_mul, hd.prim.pow_eq_one, one_pow]
    have hx1 : tau * (d.group_gen ^ i)⁻¹ ≠ 1 := by
      intro hx
      apply htau
      rw [mul_inv_eq_one₀ hgi0] at hx
      rw [hx, hgin]
    have hxn : (tau * (d.group_gen ^ i)⁻¹) ^ d.size = tau ^ d.size := by
      rw [mul_pow, inv_pow, hgin, inv_one, mul_one]
    have htg : tau - d.group_gen ^ i ≠ 0 := by
      intro h0
      apply htau
      rw [sub_eq_zero] at h0
      rw [h0, hgin]
    have hsum : ∑ k ∈ Finset.range d.size, (tau * (d.group_gen ^ i)⁻¹) ^ k =
        (tau ^ d.size - 1) * d.group_gen ^ i * (tau - d.group_gen ^ i)⁻¹ := by
      rw [geom_sum_eq hx1, hxn]
      have hden : tau * (d.group_gen ^ i)⁻¹ - 1 =
          (tau - d.group_gen ^ i) * (d.group_gen ^ i)⁻¹ := by
        field_simp
      rw [hden, div_eq_mul_inv, mul_inv, inv_inv]
      ring
    have hterm2 : ∀ k, (tau * (d.group_gen ^ i)⁻¹) ^ k =
        tau ^ k * ((d.group_gen⁻¹) ^ k) ^ i := by
      intro k
      rw [mul_pow, ← inv_pow, pow_right_comm]
    calc (tau ^ d.size - 1) * d.size_inv * d.group_gen ^ i *
        (tau - d.group_gen ^ i)⁻¹ =
        ((tau ^ d.size - 1) * d.group_gen ^ i * (tau - d.group_gen ^ i)⁻¹) *
          d.size_inv := by ring
    _ = (∑ k ∈ Finset.range d.size, (tau * (d.group_gen ^ i)⁻¹) ^ k) *
          d.size_inv := by rw [hsum]
    _ = (∑ k ∈ Finset.range d.size, tau ^ k * ((d.group_gen⁻¹) ^ k) ^ i) *
          d.size_inv := by
        rw [Finset.sum_congr rfl fun k _ => hterm2 k]
  rw [Finset.sum_congr rfl hterm, ← Finset.sum_mul, Finset.sum_comm]
  have hinner : ∀ k ∈ Finset.range d.size,
      (∑ i ∈ Finset.range d.size, tau ^ k * ((d.group_gen⁻¹) ^ k) ^ i) =
        (if k = 0 then ((d.size : ℕ) : F) else 0) := by
    intro k hk
    rw [← Finset.mul_sum]
    have hyn : ((d.group_gen⁻¹) ^ k) ^ d.size = 1 := by
      rw [← pow_mul, mul_comm, pow_mul, hd.prim.inv.pow_eq_one, one_pow]
    rw [sum_pow_eq_ite _ _ hyn]
    by_cases hk0 : k = 0
    · subst hk0
      rw [if_pos (by rw [pow_zero]), if_pos rfl, pow_zero, one_mul]
    · rw [if_neg ?_, if_neg hk0, mul_zero]
      intro h1
      apply hk0
      exact hd.prim.inv.pow_inj (Finset.mem_range.mp hk) hn0
        (by rw [h1, pow_zero])
  rw [Finset.sum_congr rfl hinner,
    Finset.sum_ite_eq' (Finset.range d.size) 0 (fun _ => ((d.size : ℕ) : F)),
    if_pos (Finset.mem_range.mpr hn0), hd.sinv, mul_inv_cancel₀ hNe]

/-- The special case of `evaluate_all_lagrange_coefficients`: for `tau` in
the domain, the scan produces the indicator vector of the (unique, minimal)
matching index. -/
theorem evaluateAll_indicator (d : Radix2EvaluationDomain F) (hd : IsGood d)
    (tau : F) (htau : tau ^ d.size = 1) :
    ∃ i, i < d.size ∧ tau = d.group_gen ^ i ∧
      evaluateAllLagrangeCoefficients d tau =
        (List.replicate d.size (0 : F)).set i 1 := by
  have hn0 : 0 < d.size := isGood_size_pos d hd
  haveI : NeZero d.size := ⟨hn0.ne'⟩
  obtain ⟨iw, hiw, hgiw⟩ := hd.prim.eq_pow_of_pow_eq_one htau
  have hP : ∃ i, d.group_gen ^ i = tau := ⟨iw, hgiw⟩
  have hfound : d.group_gen ^ Nat.find hP = tau := Nat.find_spec hP
  have hmin : ∀ j, j < Nat.find hP → d.group_gen ^ j ≠ tau := fun j hj =>
    Nat.find_min hP hj
  have hlt : Nat.find hP < d.size :=
    lt_of_le_of_lt (Nat.find_min' hP hgiw) hiw
  refine ⟨Nat.find hP, hlt, hfound.symm, ?_⟩
  have hpow : Field.pow tau [d.size] = tau ^ d.size :=
    Field.pow_single _ _ hd.size_lt
  rw [evaluateAllLagrangeCoefficients, hpow, if_pos htau]
  refine lagrangeIndicatorLoop_found d.group_gen tau d.size 1 (Nat.find hP) hlt
    (by rw [one_mul]; exact hfound) fun i hi => by
      rw [one_mul]
      exact hmin i hi

/-! ## Vanishing polynomial facts -/

theorem evaluateVanishing_eq (d : Radix2EvaluationDomain F) (hd : IsGood d)
    (tau : F) : evaluateVanishingPolynomial d tau = tau ^ d.size - 1 := by
  rw [evaluateVanishingPolynomial, Field.pow_single _ _ hd.size_lt]

theorem evaluateVanishing_domain_elem (d : Radix2EvaluationDomain F)
    (hd : IsGood d) (i : ℕ) :
    evaluateVanishingPolynomial d (d.group_gen ^ i) = 0 := by
  rw [evaluateVanishing_eq d hd, ← pow_mul, mul_comm, pow_mul,
    hd.prim.pow_eq_one, one_pow, sub_self]

theorem evaluateVanishing_ne_zero (d : Radix2EvaluationDomain F)
    (hd : IsGood d) (tau : F) (htau : ∀ i, i < d.size → tau ≠ d.group_gen ^ i) :
    evaluateVanishingPolynomial d tau ≠ 0 := by
  have hn0 : 0 < d.size := isGood_size_pos d hd
  haveI : NeZero d.size := ⟨hn0.ne'⟩
  rw [evaluateVanishing_eq d hd]
  intro h0
  have h1 : tau ^ d.size = 1 := by
    have := sub_eq_zero.mp h0
    exact this
  obtain ⟨i, hi, hgi⟩ := hd.prim.eq_pow_of_pow_eq_one h1
  exact htau i hi hgi.symm

/-! ## The checked kernel agrees with the total kernel -/

theorem get?_eq_some_getD (l : List F) (i : ℕ) (h : i < l.length) :
    l.get? i = some (l.getD i 0) := by
  rw [List.get?_eq_getElem?, List.getElem?_eq_getElem h,
    List.getD_eq_getElem?_getD, List.getElem?_eq_getElem h]
  rfl

theorem foldlM_eq_foldl_option {α β : Type} (g : β → α → Option β)
    (f : β → α → β) (I : β → Prop) (l : List α) (init : β) (hinit : I init)
    (h : ∀ b x, I b → x ∈ l → g b x = some (f b x) ∧ I (f b x)) :
    l.foldlM g init = some (l.foldl f init) ∧ I (l.foldl f init) := by
  induction l generalizing init with
  | nil => exact ⟨rfl, hinit⟩
  | cons x l ih =>
    obtain ⟨hg, hI⟩ := h init x hinit (List.mem_cons_self x l)
    rw [List.foldlM_cons, hg, List.foldl_cons]
    exact ih (f init x) hI fun b y hb hy =>
      h b y hb (List.mem_cons_of_mem x hy)

theorem listSwapChecked_eq (l : List F) (i j : ℕ) (hi : i < l.length)
    (hj : j < l.length) : listSwapChecked l i j = some (listSwap l i j) := by
  rw [listSwapChecked, getChecked, get?_eq_some_getD l j hj,
    Option.some_bind, getChecked, get?_eq_some_getD l i hi, Option.some_bind,
    setChecked, if_pos hi, Option.some_bind, setChecked,
    if_pos (by rw [List.length_set]; exact hj)]
  rfl

theorem butterflyStepChecked_eq (wm : F) (k m : ℕ) (s : List F × F) (j : ℕ)
    (h1 : k + j + m < s.1.length) (h2 : k + j < s.1.length) :
    butterflyStepChecked wm k m s j = some (butterflyBody wm k m s j) := by
  rw [butterflyStepChecked, getChecked, get?_eq_some_getD _ _ h1,
    Option.some_bind, getChecked, get?_eq_some_getD _ _ h2, Option.some_bind,
    setChecked, if_pos h1, Option.some_bind, getChecked,
    get?_eq_some_getD _ _ (by rw [List.length_set]; exact h2),
    Option.some_bind, setChecked, if_pos (by
      rw [List.length_set]
      exact h2)]
  rfl

theorem butterflyInnerChecked_eq (wm : F) (k m : ℕ) (a : List F) (hm : 0 < m)
    (hk : k + 2 * m ≤ a.length) :
    butterflyInnerChecked wm k m a = some (butterflyInner wm k m a) := by
  have h := foldlM_eq_foldl_option (butterflyStepChecked wm k m)
    (butterflyBody wm k m) (fun s => s.1.length = a.length) (List.range m)
    (a, 1) rfl ?_
  · rw [butterflyInnerChecked, h.1]
    rfl
  · intro b x hb hx
    have hxm : x < m := List.mem_range.mp hx
    refine ⟨butterflyStepChecked_eq wm k m b x (by omega) (by omega), ?_⟩
    show (butterflyBody wm k m b x).1.length = a.length
    rw [butterflyBody_length, hb]

theorem stageBlocksChecked_eq (n : ℕ) (wm : F) (m : ℕ) (a : List F)
    (hm : 0 < m) (hle : n ≤ a.length) (hdvd : 2 * m ∣ n) :
    stageBlocksChecked n wm m a = some (stageBlocks n wm m a) := by
  have hc := stageBlocks_count m n hm hdvd
  have h := foldlM_eq_foldl_option
    (fun acc b => butterflyInnerChecked wm (b * (2 * m)) m acc)
    (fun acc b => butterflyInner wm (b * (2 * m)) m acc)
    (fun acc => acc.length = a.length)
    (List.range ((n + 2 * m - 1) / (2 * m))) a rfl ?_
  · rw [stageBlocksChecked, h.1, stageBlocks]
  · intro b x hb hx
    have hxm : x < (n + 2 * m - 1) / (2 * m) := List.mem_range.mp hx
    rw [hc] at hxm
    have hbound : x * (2 * m) + 2 * m ≤ n := by
      have h1 : (x + 1) * (2 * m) ≤ (n / (2 * m)) * (2 * m) :=
        Nat.mul_le_mul_right _ (by omega)
      rw [Nat.div_mul_cancel hdvd] at h1
      have h2 : (x + 1) * (2 * m) = x * (2 * m) + 2 * m := by ring
      omega
    refine ⟨butterflyInnerChecked_eq wm _ m b hm (by rw [hb]; omega), ?_⟩
    show (butterflyInner wm (x * (2 * m)) m b).length = a.length
    rw [butterflyInner_length, hb]

theorem swapBitrevChecked_eq (n log_n : ℕ) (a : List F)
    (hn : n = 2 ^ log_n) (hle : n ≤ a.length) :
    swapBitrevChecked n log_n a = some (swapBitrevLoop n log_n a) := by
  have h := foldlM_eq_foldl_option
    (fun acc k =>
      if k < bitreverse k log_n then listSwapChecked acc k (bitreverse k log_n)
      else some acc)
    (fun acc k =>
      if k < bitreverse k log_n then listSwap acc k (bitreverse k log_n)
      else acc)
    (fun acc => acc.length = a.length) (List.range n) a rfl ?_
  · rw [swapBitrevChecked, h.1, swapBitrevLoop]
  · intro b x hb hx
    have hxm : x < n := List.mem_range.mp hx
    dsimp only
    by_cases hsw : x < bitreverse x log_n
    · rw [if_pos hsw, if_pos hsw]
      have hbr : bitreverse x log_n < a.length := by
        have hb2 := bitreverse_lt x log_n
        omega
      refine ⟨listSwapChecked_eq b x (bitreverse x log_n) (by omega) (by
        rw [hb]
        exact hbr), ?_⟩
      show (listSwap b x (bitreverse x log_n)).length = a.length
      rw [listSwap_length, hb]
    · rw [if_neg hsw, if_neg hsw]
      exact ⟨rfl, hb⟩

theorem serialStagesChecked_eq (omega : F) (log_n : ℕ) (n : ℕ)
    (hn : n = 2 ^ log_n) (b0 : List F) (hb0 : n ≤ b0.length) :
    ∀ t, t ≤ log_n →
      ((List.range t).foldlM
        (fun s (_ : ℕ) =>
          (stageBlocksChecked n (Field.pow omega [n / (2 * s.2)]) s.2
            s.1).map fun a2 => (a2, 2 * s.2))
        (b0, 1) : Option (List F × ℕ)) =
        some ((List.range t).foldl
          (fun s _ =>
            (stageBlocks n (Field.pow omega [n / (2 * s.2)]) s.2 s.1, 2 * s.2))
          (b0, 1)) ∧
      ((List.range t).foldl
        (fun s _ =>
          (stageBlocks n (Field.pow omega [n / (2 * s.2)]) s.2 s.1, 2 * s.2))
        (b0, 1)).2 = 2 ^ t ∧
      ((List.range t).foldl
        (fun s _ =>
          (stageBlocks n (Field.pow omega [n / (2 * s.2)]) s.2 s.1, 2 * s.2))
        (b0, 1)).1.length = b0.length := by
  intro t
  induction t with
  | zero => exact fun _ => ⟨rfl, rfl, rfl⟩
  | succ t ih =>
    intro ht
    obtain ⟨hM, hw, hlenB⟩ := ih (by omega)
    have hdvd : 2 * 2 ^ t ∣ n := by
      rw [hn, show (2 : ℕ) * 2 ^ t = 2 ^ (t + 1) by rw [pow_succ]; ring]
      exact pow_dvd_pow 2 (by omega)
    have hfoldM : (List.range (t + 1)).foldlM
        (fun s (_ : ℕ) =>
          (stageBlocksChecked n (Field.pow omega [n / (2 * s.2)]) s.2
            s.1).map fun a2 => (a2, 2 * s.2))
        (b0, 1) =
        ((List.range t).foldlM
          (fun s (_ : ℕ) =>
            (stageBlocksChecked n (Field.pow omega [n / (2 * s.2)]) s.2
              s.1).map fun a2 => (a2, 2 * s.2))
          (b0, 1) : Option (List F × ℕ)).bind
          (fun s =>
            (stageBlocksChecked n (Field.pow omega [n / (2 * s.2)]) s.2
              s.1).map fun a2 => (a2, 2 * s.2)) := by
      rw [List.range_succ, List.foldlM_append]
      congr 1
      funext s
      rw [List.foldlM_cons]
      simp
    rw [hfoldM, hM, Option.some_bind, hw,
      stageBlocksChecked_eq n _ (2 ^ t) _ (by positivity) (by
        rw [hlenB]
        exact hb0) hdvd,
      Option.map_some', List.range_succ, List.foldl_append, List.foldl_cons,
      List.foldl_nil, hw]
    refine ⟨rfl, ?_, ?_⟩
    · rw [show ((2 : ℕ) ^ (t + 1)) = 2 * 2 ^ t by rw [pow_succ]; ring]
    · rw [stageBlocks_length, hlenB]

/-- The checked kernel fails exactly on the `u32` entry check — `log_n ≥ 32`
(the `1u32 << log_n` shift overflows) or the wrapped length differs from
`2^log_n` — and when that check passes every access is in bounds and it
computes the total kernel. -/
theorem serialRadix2FftChecked_eq (a : List F) (omega : F) (log_n : ℕ) :
    serialRadix2FftChecked a omega log_n =
      if log_n < 32 ∧ a.length % 2 ^ 32 = 2 ^ log_n
      then some (serialRadix2Fft a omega log_n)
      else none := by
  by_cases h32 : 32 ≤ log_n
  · rw [if_neg (by omega), serialRadix2FftChecked, if_pos h32]
  · by_cases hmod : a.length % 2 ^ 32 = 2 ^ log_n
    · have hle : a.length % 2 ^ 32 ≤ a.length := Nat.mod_le _ _
      rw [if_pos ⟨by omega, hmod⟩, serialRadix2FftChecked, if_neg h32,
        if_neg (fun hne => hne hmod),
        swapBitrevChecked_eq (a.length % 2 ^ 32) log_n a hmod hle,
        Option.some_bind,
        (serialStagesChecked_eq omega log_n (a.length % 2 ^ 32) hmod
          (swapBitrevLoop (a.length % 2 ^ 32) log_n a)
          (by rw [swapBitrevLoop_length]; exact hle) log_n le_rfl).1,
        Option.map_some', serialRadix2Fft]
    · rw [if_neg (fun hc => hmod hc.2), serialRadix2FftChecked, if_neg h32,
        if_pos hmod]

/-! ## Generic helpers for the final statements -/

theorem getD_map (f : F → F) (l : List F) (p : ℕ) (hp : p < l.length) :
    (l.map f).getD p 0 = f (l.getD p 0) := by
  induction l generalizing p with
  | nil => simp at hp
  | cons x l ih =>
    cases p with
    | zero => rfl
    | succ p => exact ih p (by simpa using hp)

/-- A sufficient criterion for being a primitive `2^s`-th root of unity:
`z^(2^s) = 1` but `z^(2^(s-1)) ≠ 1`. -/
theorem isPrimitiveRoot_two_pow_of (s : ℕ) (hs : 0 < s) (z : F)
    (h1 : z ^ 2 ^ s = 1) (h2 : z ^ 2 ^ (s - 1) ≠ 1) :
    IsPrimitiveRoot z (2 ^ s) := by
  have horder : orderOf z ∣ 2 ^ s := orderOf_dvd_of_pow_eq_one h1
  obtain ⟨k, hk, hord⟩ := (Nat.dvd_prime_pow Nat.prime_two).mp horder
  have hks : k = s := by
    by_contra hne
    apply h2
    have hdvd : orderOf z ∣ 2 ^ (s - 1) := by
      rw [hord]
      exact pow_dvd_pow 2 (by omega)
    exact orderOf_dvd_iff_pow_eq_one.mp hdvd
  have hOrd : orderOf z = 2 ^ s := by rw [hord, hks]
  rw [← hOrd]
  exact IsPrimitiveRoot.orderOf z

theorem hprim17 : IsPrimitiveRoot (P17.twoAdicRootOfUnity) (2 ^ P17.TWO_ADICITY) :=
  isPrimitiveRoot_two_pow_of 4 (by norm_num) 3 (by decide) (by decide)

theorem new_P17 : Radix2EvaluationDomain.new P17 4 = some d17 := by
  have h4 : ((4 : ℕ) : ZMod 17)⁻¹ = 13 := inv_eq_of_mul_eq_one_right (by decide)
  have h13 : (13 : ZMod 17)⁻¹ = 4 := inv_eq_of_mul_eq_one_right (by decide)
  have h3 : (3 : ZMod 17)⁻¹ = 6 := inv_eq_of_mul_eq_one_right (by decide)
  have hstep : Radix2EvaluationDomain.new P17 4 =
      some
        { size := 4
          log_size_of_group := 2
          size_as_field_element := ((4 : ℕ) : ZMod 17)
          size_inv := ((4 : ℕ) : ZMod 17)⁻¹
          group_gen := 13
          group_gen_inv := (13 : ZMod 17)⁻¹
          generator_inv := (3 : ZMod 17)⁻¹ } := by rfl
  rw [hstep, h4, h13, h3]
  rfl

/-! ## The claims -/

/-- C1: For every successfully constructed `Radix2EvaluationDomain` (over valid
FFT parameters) whose size keeps the kernel's `u32` length cast
(radix2.rs line 185) from wrapping, and every coefficient vector `v` of
length at most the domain size, applying `fft_in_place` and then
`ifft_in_place` to `v` yields `v` zero-padded to the domain size: the
original entries are unchanged and the trailing entries are zero.  (For a
domain of size `≥ 2^32` the kernel's entry assertion fires on the wrapped
length instead, so the bound is exactly the regime in which the transforms
run.) -/
theorem claim_C1_fft_ifft_roundtrip (P : FftParams F) (num_coeffs : ℕ)
    (hl : P.largeSubgroupRootOfUnity = none)
    (hprim : IsPrimitiveRoot P.twoAdicRootOfUnity (2 ^ P.TWO_ADICITY))
    (hA : P.TWO_ADICITY < 64)
    (d : Radix2EvaluationDomain F)
    (hnew : Radix2EvaluationDomain.new P num_coeffs = some d)
    (hsize32 : d.size < 2 ^ 32)
    (v : List F) (hv : v.length ≤ d.size) :
    ifftInPlace d (fftInPlace d v) = v ++ List.replicate (d.size - v.length) 0 :=
  ifftInPlace_fftInPlace d (new_isGood P num_coeffs hl hprim hA d hnew) hsize32
    v hv

theorem claim_C1_witness :
    P17.largeSubgroupRootOfUnity = none ∧ P17.TWO_ADICITY < 64 ∧
    d17.size < 2 ^ 32 ∧
    ([(1 : ZMod 17), 2, 3]).length ≤ d17.size ∧
    ifftInPlace d17 (fftInPlace d17 [(1 : ZMod 17), 2, 3]) =
      [(1 : ZMod 17), 2, 3] ++ List.replicate (d17.size - 3) 0 :=
  ⟨rfl, by decide, by decide, by decide,
    claim_C1_fft_ifft_roundtrip P17 4 rfl hprim17 (by decide) d17 new_P17
      (by decide) [1, 2, 3] (by decide)⟩

/-- C2: `batch_inversion` preserves the length of the slice, replaces every
originally-nonzero element `x` by a `y` with `x * y = 1`, and leaves every
originally-zero element unchanged. -/
theorem claim_C2_batch_inversion (v : List F) :
    (batchInversion v).length = v.length ∧
    ∀ i, i < v.length →
      (v.getD i 0 ≠ 0 → v.getD i 0 * (batchInversion v).getD i 0 = 1) ∧
      (v.getD i 0 = 0 → (batchInversion v).getD i 0 = v.getD i 0) := by
  rw [batchInversion_eq_map_inv]
  refine ⟨List.length_map v _, fun i hi => ⟨fun hne => ?_, fun h0 => ?_⟩⟩
  · rw [getD_map _ v i hi]
    exact mul_inv_cancel₀ hne
  · rw [getD_map _ v i hi, h0, inv_zero]

theorem claim_C2_witness :
    (batchInversion [(2 : ZMod 17), 0, 3]).length = 3 ∧
    ([(2 : ZMod 17), 0, 3]).getD 0 0 *
      (batchInversion [(2 : ZMod 17), 0, 3]).getD 0 0 = 1 ∧
    (batchInversion [(2 : ZMod 17), 0, 3]).getD 1 0 =
      ([(2 : ZMod 17), 0, 3]).getD 1 0 :=
  ⟨(claim_C2_batch_inversion [2, 0, 3]).1,
    ((claim_C2_batch_inversion [2, 0, 3]).2 0 (by decide)).1 (by decide),
    ((claim_C2_batch_inversion [2, 0, 3]).2 1 (by decide)).2 (by decide)⟩

/-- C3: with no small subgroup configured, `get_root_of_unity n` returns
`some ω` with `ω` of order exactly `n` (in particular `ω.pow [n] = 1`) for
every `n = 2^k` with `k ≤ TWO_ADICITY`, and returns `none` for every other
`n` (not a power of two, or exponent above the two-adicity). -/
theorem claim_C3_get_root_of_unity (P : FftParams F)
    (hl : P.largeSubgroupRootOfUnity = none)
    (hprim : IsPrimitiveRoot P.twoAdicRootOfUnity (2 ^ P.TWO_ADICITY))
    (hA : P.TWO_ADICITY < 64) :
    (∀ k, k ≤ P.TWO_ADICITY →
      ∃ w, getRootOfUnity P (2 ^ k) = some w ∧ IsPrimitiveRoot w (2 ^ k) ∧
        Field.pow w [2 ^ k] = 1) ∧
    (∀ n, ¬(∃ k, n = 2 ^ k ∧ k ≤ P.TWO_ADICITY) → getRootOfUnity P n = none) := by
  constructor
  · intro k hk
    refine ⟨_, getRootOfUnity_two_adic P hl k hk,
      getRootOfUnity_isPrimitiveRoot P hprim k hk, ?_⟩
    rw [Field.pow_single _ _
      (lt_of_le_of_lt (Nat.pow_le_pow_right (by norm_num) hk)
        (Nat.pow_lt_pow_right (by norm_num) hA))]
    exact (getRootOfUnity_isPrimitiveRoot P hprim k hk).pow_eq_one
  · intro n hn
    exact (getRootOfUnity_eq_none_iff P hl n).mpr hn

theorem claim_C3_witness :
    (∃ w, getRootOfUnity P17 (2 ^ 2) = some w ∧ IsPrimitiveRoot w (2 ^ 2) ∧
      Field.pow w [2 ^ 2] = 1) ∧
    getRootOfUnity P17 24 = none :=
  ⟨(claim_C3_get_root_of_unity P17 rfl hprim17 (by decide)).1 2 (by decide),
    (claim_C3_get_root_of_unity P17 rfl hprim17 (by decide)).2 24
      (by
        rintro ⟨k, hk1, hk2⟩
        have hk4 : k ≤ 4 := hk2
        interval_cases k <;> norm_num at hk1)⟩

/-- C4: `Radix2EvaluationDomain::new num_coeffs` returns `none` exactly when
the log2 of the next power of two above `num_coeffs` exceeds `TWO_ADICITY`,
or any required derivation fails (root of unity for the size, inverse of the
size as a field element, inverse of the group generator, inverse of the
multiplicative generator); on success the domain satisfies
`group_gen ^ size = 1`, `group_gen * group_gen_inv = 1` and
`size_as_field_element * size_inv = 1`. -/
theorem claim_C4_new (P : FftParams F) (num_coeffs : ℕ)
    (hl : P.largeSubgroupRootOfUnity = none)
    (hprim : IsPrimitiveRoot P.twoAdicRootOfUnity (2 ^ P.TWO_ADICITY))
    (hA : P.TWO_ADICITY < 64) :
    (Radix2EvaluationDomain.new P num_coeffs = none ↔
      (trailingZeros (nextPowerOfTwo num_coeffs) > P.TWO_ADICITY ∨
        getRootOfUnity P (nextPowerOfTwo num_coeffs) = none ∨
        inverse ((nextPowerOfTwo num_coeffs : ℕ) : F) = none ∨
        (∃ g, getRootOfUnity P (nextPowerOfTwo num_coeffs) = some g ∧
          inverse g = none) ∨
        inverse P.mulGenerator = none)) ∧
    ∀ d, Radix2EvaluationDomain.new P num_coeffs = some d →
      d.group_gen ^ d.size = 1 ∧ d.group_gen * d.group_gen_inv = 1 ∧
      d.size_as_field_element * d.size_inv = 1 := by
  refine ⟨new_eq_none_iff P num_coeffs, fun d hd => ?_⟩
  have hg := new_isGood P num_coeffs hl hprim hA d hd
  refine ⟨hg.prim.pow_eq_one, ?_, ?_⟩
  · rw [hg.gen_inv]
    exact mul_inv_cancel₀ (isGood_gen_ne_zero d hg)
  · rw [hg.sfe, hg.sinv]
    exact mul_inv_cancel₀ hg.cast_ne

theorem claim_C4_witness :
    d17.group_gen ^ d17.size = 1 ∧ d17.group_gen * d17.group_gen_inv = 1 ∧
    d17.size_as_field_element * d17.size_inv = 1 :=
  (claim_C4_new P17 4 rfl hprim17 (by decide)).2 d17 new_P17

/-- C5: for every constructed domain and every `tau`,
`evaluate_all_lagrange_coefficients tau` is the vector of Lagrange basis
evaluations: the indicator vector of the matching index when
`tau ^ size = 1`, and otherwise entry `i` is
`(tau ^ size - 1) / size * group_gen ^ i / (tau - group_gen ^ i)`;
in both cases the entries sum to one. -/
theorem claim_C5_lagrange (P : FftParams F) (num_coeffs : ℕ)
    (hl : P.largeSubgroupRootOfUnity = none)
    (hprim : IsPrimitiveRoot P.twoAdicRootOfUnity (2 ^ P.TWO_ADICITY))
    (hA : P.TWO_ADICITY < 64)
    (d : Radix2EvaluationDomain F)
    (hnew : Radix2EvaluationDomain.new P num_coeffs = some d) (tau : F) :
    (tau ^ d.size = 1 →
      ∃ i, i < d.size ∧ tau = d.group_gen ^ i ∧
        evaluateAllLagrangeCoefficients d tau =
          (List.replicate d.size (0 : F)).set i 1) ∧
    (tau ^ d.size ≠ 1 →
      evaluateAllLagrangeCoefficients d tau =
        (List.range d.size).map
          (fun i => (tau ^ d.size - 1) * (((d.size : ℕ) : F))⁻¹ *
            d.group_gen ^ i * (tau - d.group_gen ^ i)⁻¹)) ∧
    (evaluateAllLagrangeCoefficients d tau).sum = 1 := by
  have hg := new_isGood P num_coeffs hl hprim hA d hnew
  refine ⟨fun h => evaluateAll_indicator d hg tau h, fun h => ?_, ?_⟩
  · rw [evaluateAll_general d hg tau h, hg.sinv]
  · by_cases h : tau ^ d.size = 1
    · obtain ⟨i, hi, _, heq⟩ := evaluateAll_indicator d hg tau h
      rw [heq]
      exact lagrangeIndicatorLoop_sum d.group_gen tau d.size i hi
    · rw [evaluateAll_general d hg tau h]
      exact lagrange_sum_general d hg tau h

theorem claim_C5_witness :
    ((2 : ZMod 17) ^ d17.size ≠ 1 →
      evaluateAllLagrangeCoefficients d17 2 =
        (List.range d17.size).map
          (fun i => ((2 : ZMod 17) ^ d17.size - 1) * (((d17.size : ℕ) : ZMod 17))⁻¹ *
            d17.group_gen ^ i * ((2 : ZMod 17) - d17.group_gen ^ i)⁻¹)) ∧
    (evaluateAllLagrangeCoefficients d17 (2 : ZMod 17)).sum = 1 :=
  ⟨(claim_C5_lagrange P17 4 rfl hprim17 (by decide) d17 new_P17 2).2.1,
    (claim_C5_lagrange P17 4 rfl hprim17 (by decide) d17 new_P17 2).2.2⟩

/-- C6: for every constructed domain and every `tau`,
`evaluate_vanishing_polynomial tau = tau ^ size - 1`; it vanishes on every
domain element `group_gen ^ i` and is nonzero off the domain, and
`vanishing_polynomial` is the sparse polynomial with exactly the
coefficients `-1` at degree `0` and `1` at degree `size`. -/
theorem claim_C6_vanishing (P : FftParams F) (num_coeffs : ℕ)
    (hl : P.largeSubgroupRootOfUnity = none)
    (hprim : IsPrimitiveRoot P.twoAdicRootOfUnity (2 ^ P.TWO_ADICITY))
    (hA : P.TWO_ADICITY < 64)
    (d : Radix2EvaluationDomain F)
    (hnew : Radix2EvaluationDomain.new P num_coeffs = some d) :
    (∀ tau, evaluateVanishingPolynomial d tau = tau ^ d.size - 1) ∧
    (∀ i, evaluateVanishingPolynomial d (d.group_gen ^ i) = 0) ∧
    (∀ tau, (∀ i, i < d.size → tau ≠ d.group_gen ^ i) →
      evaluateVanishingPolynomial d tau ≠ 0) ∧
    vanishingPolynomial d = ⟨[(0, -1), (d.size, 1)]⟩ := by
  have hg := new_isGood P num_coeffs hl hprim hA d hnew
  exact ⟨fun tau => evaluateVanishing_eq d hg tau,
    fun i => evaluateVanishing_domain_elem d hg i,
    fun tau h => evaluateVanishing_ne_zero d hg tau h, rfl⟩

theorem claim_C6_witness :
    evaluateVanishingPolynomial d17 5 = (5 : ZMod 17) ^ d17.size - 1 ∧
    evaluateVanishingPolynomial d17 (d17.group_gen ^ 1) = 0 ∧
    vanishingPolynomial d17 = ⟨[(0, -1), (d17.size, 1)]⟩ :=
  ⟨(claim_C6_vanishing P17 4 rfl hprim17 (by decide) d17 new_P17).1 5,
    (claim_C6_vanishing P17 4 rfl hprim17 (by decide) d17 new_P17).2.1 1,
    (claim_C6_vanishing P17 4 rfl hprim17 (by decide) d17 new_P17).2.2.2⟩

/-- C7: `Field::pow` on a limb-encoded exponent (least significant `u64` limb
first, each limb below `2^64`) equals the product of `n` copies of the base,
where `n` is the encoded natural number; in particular `a.pow [0] = 1`. -/
theorem claim_C7_pow (a : F) (limbs : List ℕ) (h : ∀ l ∈ limbs, l < 2 ^ 64) :
    Field.pow a limbs = (List.replicate (natOfLimbs limbs) a).prod ∧
    Field.pow a [0] = 1 := by
  constructor
  · rw [Field.pow_eq_pow a limbs h, List.prod_replicate]
  · rw [Field.pow_single a 0 (by norm_num), pow_zero]

theorem claim_C7_witness :
    Field.pow (3 : ZMod 17) [5] =
      (List.replicate (natOfLimbs [5]) (3 : ZMod 17)).prod ∧
    Field.pow (3 : ZMod 17) [0] = 1 :=
  claim_C7_pow 3 [5] (by decide)

/-- C8 (amended): the entry check of `serial_radix2_fft` is performed in
`u32` after the wrapping cast `a.len() as u32` (radix2.rs lines 185-186), so
the kernel fails exactly when `log_n ≥ 32` (the `1u32 << log_n` shift
overflows) or `a.len() mod 2^32 ≠ 2^log_n` — not exactly when
`a.len() ≠ 2^log_n`; under the precondition `a.length = 2^log_n` with
`log_n < 32`, every buffer access (the bit-reversal swaps and the butterfly
reads/writes at `k+j` and `k+j+m`) is in bounds and the kernel is total. -/
theorem claim_C8_kernel_total (a : List F) (omega : F) (log_n : ℕ) :
    (serialRadix2FftChecked a omega log_n = none ↔
      32 ≤ log_n ∨ a.length % 2 ^ 32 ≠ 2 ^ log_n) ∧
    (a.length = 2 ^ log_n → log_n < 32 →
      serialRadix2FftChecked a omega log_n =
        some (serialRadix2Fft a omega log_n)) := by
  rw [serialRadix2FftChecked_eq]
  constructor
  · by_cases h : log_n < 32 ∧ a.length % 2 ^ 32 = 2 ^ log_n
    · obtain ⟨hlt, hmod⟩ := h
      rw [if_pos ⟨hlt, hmod⟩]
      refine ⟨fun hnone => by simp at hnone, fun hdisj => ?_⟩
      rcases hdisj with h1 | h2
      · omega
      · exact absurd hmod h2
    · rw [if_neg h]
      refine ⟨fun _ => ?_, fun _ => rfl⟩
      by_cases h32 : 32 ≤ log_n
      · exact Or.inl h32
      · exact Or.inr fun hmod => h ⟨by omega, hmod⟩
  · intro hlen h32
    rw [if_pos ⟨h32, by
      rw [hlen]
      exact Nat.mod_eq_of_lt (Nat.pow_lt_pow_right one_lt_two h32)⟩]

/-- C8 counterexample to the original claim: at `a.len() = 2^32` and
`log_n = 32` the buffer length IS exactly `2^log_n`, yet the kernel panics
at entry — the cast `a.len() as u32` wraps the length to `0` and the `u32`
shift `1 << 32` overflows — so "fails exactly when `a.len() ≠ 2^log_n`" is
false of the code. -/
theorem claim_C8_counterexample :
    (List.replicate (2 ^ 32) (0 : ZMod 17)).length = 2 ^ 32 ∧
    serialRadix2FftChecked (List.replicate (2 ^ 32) (0 : ZMod 17)) 1 32 =
      none := by
  refine ⟨List.length_replicate _ _, ?_⟩
  rw [serialRadix2FftChecked]
  rw [if_pos (le_refl 32)]

theorem claim_C8_witness :
    serialRadix2FftChecked [(1 : ZMod 17), 2, 3] 13 2 = none ∧
    serialRadix2FftChecked [(1 : ZMod 17), 2, 3, 4] 13 2 =
      some (serialRadix2Fft [(1 : ZMod 17), 2, 3, 4] 13 2) :=
  ⟨(claim_C8_kernel_total [(1 : ZMod 17), 2, 3] 13 2).1.mpr (by decide),
    (claim_C8_kernel_total [(1 : ZMod 17), 2, 3, 4] 13 2).2 (by decide)
      (by decide)⟩

/-- C9: every transform and query operation of the domain leaves the domain
value itself unchanged; only the returned buffer differs. -/
theorem claim_C9_frame (d : Radix2EvaluationDomain F) (buf : List F) (tau : F) :
    (fftInPlaceStep d buf).1 = d ∧
    (ifftInPlaceStep d buf).1 = d ∧
    (cosetIfftInPlaceStep d buf).1 = d ∧
    (evaluateAllLagrangeCoefficientsStep d tau).1 = d ∧
    (evaluateVanishingPolynomialStep d tau).1 = d ∧
    (elementsStep d).1 = d :=
  ⟨rfl, rfl, rfl, rfl, rfl, rfl⟩

/-- C10: if the caller buffer is strictly longer than the domain size,
`fft_in_place` and `ifft_in_place` first truncate it to exactly `size`
entries, so the result only depends on the first `size` entries. -/
theorem claim_C10_truncate (d : Radix2EvaluationDomain F) (v : List F)
    (hv : d.size < v.length) :
    fftInPlace d v = fftInPlace d (v.take d.size) ∧
    ifftInPlace d v = ifftInPlace d (v.take d.size) := by
  have h1 : listResize v d.size 0 = v.take d.size :=
    listResize_of_ge v d.size 0 (by omega)
  have h2 : listResize (v.take d.size) d.size 0 = v.take d.size :=
    listResize_self _ _ _ (by rw [List.length_take]; omega)
  constructor
  · rw [fftInPlace, fftInPlace, h1, h2]
  · rw [ifftInPlace, ifftInPlace, h1, h2]

theorem claim_C10_witness :
    fftInPlace d17 [(1 : ZMod 17), 2, 3, 4, 5] =
      fftInPlace d17 (([(1 : ZMod 17), 2, 3, 4, 5]).take d17.size) ∧
    ifftInPlace d17 [(1 : ZMod 17), 2, 3, 4, 5] =
      ifftInPlace d17 (([(1 : ZMod 17), 2, 3, 4, 5]).take d17.size) :=
  claim_C10_truncate d17 [1, 2, 3, 4, 5] (by decide)

end Sunzi

